import Mathlib

/-!
Verification development for the trpx repository (Terse/prolix codec,
bit-addressed buffers, Terse container files, greyscale TIFF container).

Modelling conventions
=====================

* Machine integers are modelled arithmetically: an unsigned value of width
  `w` is a `Nat` together with explicit truncations `% 2 ^ w`; a signed
  value of width `w` is an `Int` in `[-2^(w-1), 2^(w-1))`, and its
  two's-complement bit pattern is `toPat w v = (v % 2^w).toNat`.
* C++ integral promotion: operands narrower than `int` are promoted to
  32 bits before arithmetic, so shifts and masks of `int8_t`/`int16_t`
  expressions are computed in width `intWidth w = max 32 w`.
* A C++ shift whose count is `≥` the promoted operand width is undefined
  behaviour.  Every mainstream target (x86, ARM, both 32- and 64-bit)
  executes such a shift with the count reduced modulo the operand width,
  and the model uses that de-facto semantics: each such use-site below
  carries `% intWidth _` or `% 64` on the shift count and is marked with
  a comment.  This matters only for `s = 32`/`s = 33` masks on 32-bit
  element types (and `s = 64` on 64-bit ones).
* The bit buffer written by `Bit_pointer`/`Bit_range` is a flat bit
  sequence: bit `b` of 64-bit word `k` (the default `Terse<uint64_t>`
  backing) is flat bit `64*k + b`, and an `n`-bit integer written at a
  position occupies `n` consecutive flat bits, least significant first.
  The Terse encoder model works directly on this flat sequence
  (`List Bool`); the word-level read/write routines of `Bit_range`
  (`operator=` / `operator T`) are modelled separately, word for word,
  for the bit-range claims.
* Recursive functions take an explicit fuel argument (first `Nat`
  parameter) so that they are structural and kernel-reducible; the fuel
  supplied at each outer entry point strictly dominates the recursion
  depth of the source loop, so it never runs out on the arguments the
  source can reach.
-/

namespace Trpx

/-! ### Flat bit sequences (little-endian packing, `Bit_pointer.hpp`) -/

/-- Low `k` bits of `n`, least significant first.  This is how
`Bit_range::operator|=` and `append_range` deposit an integer into `k`
consecutive bits (`Bit_pointer.hpp:629-649`, `700-730`). -/
def toBitsLE : Nat → Nat → List Bool
  | 0, _ => []
  | k + 1, n => (decide (n % 2 = 1)) :: toBitsLE k (n / 2)

/-- Value of a little-endian bit list (how `Bit_range::operator T` and
`get_range` reassemble an integer from consecutive bits). -/
def ofBitsLE : List Bool → Nat
  | [] => 0
  | b :: bs => (if b then 1 else 0) + 2 * ofBitsLE bs

/-- Value of the `k` leading bits of a bit stream.  Bits past the end of
the stream read as zero: the backing buffer is zero-initialised, so bits
after the last written one are zero. -/
def valLE (k : Nat) (bs : List Bool) : Nat := ofBitsLE (bs.take k)

/-! ### C++ integer helpers -/

/-- Width in which C++ computes arithmetic on a `w`-bit integral operand
after integral promotion (operands narrower than `int` promote to 32
bits). -/
def intWidth (w : Nat) : Nat := max 32 w

/-- Two's-complement bit pattern of the signed value `v` at width `w`. -/
def toPat (w : Nat) (v : Int) : Nat := (v % ((2 : Int) ^ w)).toNat

/-- Signed value of a `w`-bit two's-complement pattern. -/
def toVal (w : Nat) (p : Nat) : Int :=
  if p < 2 ^ (w - 1) then (p : Int) else (p : Int) - (2 : Int) ^ w

/-- Result of `std::abs` on a `w`-bit signed value after promotion: the
exact absolute value, except that the promoted minimum wraps to itself
(two's-complement negation overflow; reachable only when `w ≥ 32`). -/
def absProm (w : Nat) (v : Int) : Int :=
  if v = -((2 : Int) ^ (intWidth w - 1)) then v else |v|

/-- Fueled model of `Operator::highest_set_bit` on an unsigned value
(`Operators.hpp:157-161`): the loop `for (r=0; val; val>>=1, ++r)`. -/
def hsbGo : Nat → Nat → Nat
  | _, 0 => 0
  | 0, _ + 1 => 0
  | f + 1, v + 1 => hsbGo f ((v + 1) / 2) + 1

/-- Model of `Operator::highest_set_bit` for an unsigned argument:
the index (1-based) of the highest set bit, `0` for `0`. -/
def highest_set_bit (v : Nat) : Nat := hsbGo v v

/-! ### The Terse encoder (`Terse::_compress`, `Terse.hpp:236-284`) -/

/-- Accumulated `setbits` of one block (`Terse.hpp:243-249`): for
unsigned data the OR of the values; for signed data the OR of the
promoted `std::abs` patterns, truncated back into the `w`-bit element
variable `setbits` at each step. -/
def blockSetbits (w : Nat) (sgn : Bool) (blk : List Int) : Nat :=
  if sgn then blk.foldl (fun sb v => (sb ||| toPat (intWidth w) (absProm w v)) % 2 ^ w) 0
  else blk.foldl (fun sb v => sb ||| v.toNat) 0

/-- Per-block width `significant_bits = Operator::highest_set_bit(setbits)`
(`Terse.hpp:250`, `Operators.hpp:152-162`).  For a signed element type the
source computes `1 + highest_set_bit(make_unsigned_t<T>(abs(val)))` on the
`w`-bit value of `setbits`, where the cast truncates the promoted absolute
value to `w` bits. -/
def significant_bits (w : Nat) (sgn : Bool) (blk : List Int) : Nat :=
  let sb := blockSetbits w sgn blk
  if sgn then
    let v := toVal w sb
    if v = 0 then 0 else highest_set_bit (toPat w (absProm w v)) + 1
  else highest_set_bit sb

/-- Block header bits emitted by `Terse::_compress` (`Terse.hpp:251-269`):
a single `1` bit when the width equals the previous block's width,
otherwise a `0` bit followed by the 3-, 5- or 11-bit field written with
`Bit_range::operator|=`.  (The 11-bit value `31 + (s-10)*32` fits in 11
bits exactly when `s ≤ 73`; the source would spill further bits for a
larger `s`, which no supported element type can produce.) -/
def headerEncode (prev s : Nat) : List Bool :=
  if s = prev then [true]
  else
    false ::
      (if s < 7 then toBitsLE 3 s
       else if s < 10 then toBitsLE 5 (7 + (s - 7) * 8)
       else toBitsLE 11 (31 + (s - 10) * 32))

/-- Payload bits of one value (`Bit_range::append_range`,
`Bit_pointer.hpp:700-730`, called at `Terse.hpp:272`): the low `s` bits
of the value.  For a signed element type the source masks with
`(T(1) << s) - 1` computed in the promoted width — de-facto shift-count
semantics, `s % intWidth w` (this is where `w = 32`, `s ∈ {32, 33}`
loses data).  For an unsigned element type the source deposits the raw
value; every value of the block is `< 2^s` by construction of `s`, so
taking the low `s` bits is the same thing. -/
def storeBits (w : Nat) (sgn : Bool) (s : Nat) (v : Int) : List Bool :=
  if sgn then toBitsLE s (toPat (intWidth w) v &&& (2 ^ (s % intWidth w) - 1))
  else toBitsLE s v.toNat

/-- Fueled model of the block loop of `Terse::_compress`
(`Terse.hpp:240-280`): one header per block of `block` values (the last
block may be short), then `s` bits per value unless `s = 0`; `prevbits`
starts at `0` and afterwards always equals the width of the block just
emitted.  Fuel bounds the number of blocks; `vals.length` suffices since
every block consumes at least one value. -/
def compressGo (w : Nat) (sgn : Bool) (block : Nat) : Nat → List Int → Nat → List Bool
  | _, [], _ => []
  | 0, _ :: _, _ => []
  | f + 1, v :: vs, prev =>
    let blk := v :: vs.take (block - 1)
    let s := significant_bits w sgn blk
    headerEncode prev s ++
      (if s = 0 then [] else blk.flatMap (storeBits w sgn s)) ++
      compressGo w sgn block f (vs.drop (block - 1)) s

/-- Bit stream emitted by `Terse::_compress` for the value sequence
`vals` with block size `block` (element width `w`, signedness `sgn`). -/
def compressBits (w : Nat) (sgn : Bool) (block : Nat) (vals : List Int) : List Bool :=
  compressGo w sgn block vals.length vals 0

/-- Packing of the emitted bits into 64-bit backing words, including the
final `terse_data.resize(1 + bits/64)` of `Terse.hpp:281`: the buffer
always keeps one word beyond the last written bit. -/
def packWords (bits : List Bool) : List Nat :=
  (List.range (1 + bits.length / 64)).map fun k => ofBitsLE ((bits.drop (64 * k)).take 64)

/-- Flat bit sequence of a list of 64-bit backing words. -/
def wordsToBits (ws : List Nat) : List Bool := ws.flatMap (toBitsLE 64)

/-- State of a `Terse<uint64_t>` object (`Terse.hpp:209-214`): the
recorded metadata and the compressed word buffer. -/
structure TerseData where
  d_prolix_bits : Nat
  d_signed : Bool
  d_block : Nat
  d_size : Nat
  d_terse_data : List Nat
deriving DecidableEq

/-- Model of the `Terse(iterator, size, block)` constructor
(`Terse.hpp:138-144`) for a `w`-bit element type of signedness `sgn`. -/
def Terse_compress (w : Nat) (sgn : Bool) (vals : List Int) (block : Nat) : TerseData :=
  ⟨w, sgn, block, vals.length, packWords (compressBits w sgn block vals)⟩

/-! ### The Terse decoder (`Terse::prolix`, `Terse.hpp:148-182`) -/

/-- Block header decoding of `Terse::prolix` (`Terse.hpp:156-167`): read
one bit; on `1` reuse the incoming width, on `0` read a 3-bit field,
extended by 2 further bits when it reads `7` and by 6 further bits when
those make `10`. -/
def headerDecode (sig : Nat) (bs : List Bool) : Nat × List Bool :=
  if bs.headD false then (sig, bs.tail)
  else
    let s1 := valLE 3 bs.tail
    if s1 = 7 then
      let s2 := s1 + valLE 2 (bs.tail.drop 3)
      if s2 = 10 then (s2 + valLE 6 (bs.tail.drop 5), bs.tail.drop 11)
      else (s2, bs.tail.drop 5)
    else (s1, bs.tail.drop 3)

/-- Value delivered for one extracted `s`-bit field `f` by
`Bit_range::get_range` into a `tw`-bit integral target of signedness
`tsgn` (`Bit_pointer.hpp:742-792`).  When the target is narrower than
`s` the source re-extracts through `uint64_t`/`int64_t` and clamps; in
the direct path it masks with `(T(1) << s) - 1` computed in the promoted
width (de-facto shift-count semantics `s % intWidth tw`, the `s = 32`
case) and sign-extends from bit `s-1` for a signed target. -/
def decodeVal (tw : Nat) (tsgn : Bool) (s : Nat) (f : Nat) : Int :=
  if tw < s then
    -- clamp path: extraction through a 64-bit array, then clamp to the target range
    let mask64 := 2 ^ (s % 64) - 1   -- de-facto count for the (unreachable) s = 64 shift
    if tsgn then
      let p := if f.testBit (s - 1) then (f &&& mask64) ||| ((2 ^ 64 - 1) ^^^ mask64)
               else f &&& mask64
      max (-((2 : Int) ^ (tw - 1))) (min (toVal 64 p) ((2 : Int) ^ (tw - 1) - 1))
    else (min (f &&& mask64) (2 ^ tw - 1) : Nat)
  else
    let maskP := (2 ^ (s % intWidth tw) - 1) % 2 ^ tw  -- de-facto count; kills s = 32 at tw = 32
    if tsgn then
      if s ≠ 0 ∧ f.testBit (s - 1) then toVal tw ((f &&& maskP) ||| ((2 ^ tw - 1) ^^^ maskP))
      else toVal tw (f &&& maskP)
    else (f &&& maskP : Nat)

/-- Fueled model of the block loop of `Terse::prolix` (`Terse.hpp:153-181`)
decoding `n` values into a `tw`-bit integral target of signedness `tsgn`:
per block, decode the header into the running width `sig`; a width of `0`
stores zeros and consumes no payload bits, otherwise `count` fields of
`sig` bits are extracted.  Fuel `n` suffices (each block emits at least
one value). -/
def prolixGo (tw : Nat) (tsgn : Bool) (block : Nat) : Nat → Nat → List Bool → Nat → List Int
  | 0, _, _, _ => []
  | _ + 1, 0, _, _ => []
  | f + 1, n + 1, bs, sig =>
    let count := 1 + min (block - 1) n
    let hd := headerDecode sig bs
    if hd.1 = 0 then
      List.replicate count 0 ++ prolixGo tw tsgn block f (n + 1 - count) hd.2 hd.1
    else
      (List.range count).map (fun i => decodeVal tw tsgn hd.1 (valLE hd.1 (hd.2.drop (hd.1 * i))))
        ++ prolixGo tw tsgn block f (n + 1 - count) (hd.2.drop (hd.1 * count)) hd.1

/-- Model of `Terse::prolix(begin)` into a container of `tw`-bit integral
elements of signedness `tsgn` (`Terse.hpp:148-182`).  The two `assert`s
at `Terse.hpp:150-151` — the target must be at least `prolix_bits` wide
and of exactly the recorded signedness — abort the call (modelled as
`none`) when violated. -/
def Terse_prolix (t : TerseData) (tw : Nat) (tsgn : Bool) : Option (List Int) :=
  if t.d_prolix_bits ≤ tw ∧ t.d_signed = tsgn then
    some (prolixGo tw tsgn t.d_block t.d_size t.d_size (wordsToBits t.d_terse_data) 0)
  else none

/-! ### Terse container serialization (`operator<<`, `Terse.hpp:189-207`) -/

/-- Byte payload written after the descriptor for a `Terse<uint64_t>`
object (`Terse.hpp:199-203`): each backing word is emitted as 8 bytes,
least significant first, by the arithmetic loop `val >>= 8` — hence the
stream is independent of the writing host's endianness. -/
def payloadBytes (t : TerseData) : List Nat :=
  t.d_terse_data.flatMap fun val => (List.range 8).map fun i => (val >>> (8 * i)) % 256

/-- Value of the `memory_size` attribute written by `operator<<`
(`Terse.hpp:194`): `d_terse_data.size() * sizeof(T)` with `T = uint64_t`. -/
def memorySize (t : TerseData) : Nat := t.d_terse_data.length * 8

/-- Decimal digit characters of `n`, most significant first, as printed
by `ostream << n` for an unsigned integer. -/
def reprDigits (n : Nat) : List Char :=
  if n = 0 then ['0'] else ((Nat.digits 10 n).reverse).map Nat.digitChar

/-- Model of `std::stoul` on the digit-only strings produced by the
writer.  (Sign, whitespace and overflow handling of `stoul`, and the
exception on an empty string, are unreachable on writer-produced
descriptors.) -/
def parseNat (ds : List Char) : Nat := ds.foldl (fun a c => 10 * a + (c.toNat - 48)) 0

/-- Character stream written by `operator<< (ostream, Terse const&)`
(`Terse.hpp:189-207`): the ASCII descriptor followed immediately by the
payload bytes (embedded here as characters with the byte's code point). -/
def serializeTerse (t : TerseData) : List Char :=
  "<Terse prolix_bits=\"".data ++ reprDigits t.d_prolix_bits ++
  "\" signed=\"".data ++ (if t.d_signed then ['1'] else ['0']) ++
  "\" block=\"".data ++ reprDigits t.d_block ++
  "\" memory_size=\"".data ++ reprDigits (memorySize t) ++
  "\" number_of_values=\"".data ++ reprDigits t.d_size ++
  "\"/>".data ++ (payloadBytes t).map Char.ofNat

/-! ### Terse container parsing (`Terse.hpp:216-234`, `XML_element.hpp`) -/

/-- Everything after the first occurrence of `c` (model of
`istream::ignore(max, c)`); the whole stream is consumed when `c` does
not occur. -/
def dropThrough (c : Char) : List Char → List Char
  | [] => []
  | x :: xs => if x = c then xs else dropThrough c xs

/-- Prefix of the stream up to and including the first occurrence of `c`
(model of `XML_element::f_read_upto`). -/
def takeThrough (c : Char) : List Char → List Char
  | [] => []
  | x :: xs => if x = c then [x] else x :: takeThrough c xs

/-- Fueled model of the attribute-search loop of
`XML_element::attribute(name)` (`XML_element.hpp:296-307`): at each
position, if the name followed by `=` starts here, return the quoted
value; otherwise skip a whole quoted value when standing on `=`, else
advance one character.  The loop stops with an empty result when fewer
than `name.size() + 3` characters remain. -/
def attrScanGo (name : List Char) : Nat → List Char → List Char
  | 0, _ => []
  | f + 1, s =>
    if s.length < name.length + 3 then []
    else if s.take name.length = name ∧ s.getD name.length ' ' = '=' then
      (s.drop (name.length + 2)).takeWhile fun c => c ≠ s.getD (name.length + 1) ' '
    else if s.getD 0 ' ' = '=' then
      attrScanGo name f (((s.drop 2).dropWhile fun c => c ≠ s.getD 1 ' ').drop 1)
    else attrScanGo name f (s.drop 1)

/-- Attribute lookup on the captured attribute text. -/
def attrLookup (attrs name : List Char) : List Char := attrScanGo name attrs.length attrs

/-- Fueled model of `XML_element::f_find_tag` for the tag `Terse`: skip
to each `<` in turn until the tag name follows it.  (The CDATA- and
comment-skipping branches of the source loop are not modelled; no
writer-produced stream contains `<![CDATA[` or `<!--` before the
descriptor.) -/
def findTagGo : Nat → List Char → Option (List Char)
  | 0, _ => none
  | f + 1, s =>
    if '<' ∈ s then
      let r := dropThrough '<' s
      if r.take 5 = "Terse".data then some r else findTagGo f r
    else none

/-- Little-endian byte recomposition used when reloading the word buffer. -/
def ofBytesLE : List Nat → Nat
  | [] => 0
  | b :: bs => b + 256 * ofBytesLE bs

/-- Model of `Terse(std::ifstream&)` (`Terse.hpp:146`, `216-234`) for
`T = uint64_t`: locate the `<Terse ...>` descriptor (`XML_element`),
capture its attribute text, read the five metadata attributes with
`std::stoul`, then read `memory_size` bytes and repack them into 64-bit
words, 8 little-endian bytes per word (`Terse.hpp:221-233`).  Returns
`none` where the source would fail to find a self-closing tag (the
element-body branch of `XML_element` is never taken on writer-produced
streams).  As in the source, a short payload leaves the zero-initialised
tail of the byte buffer, and the repack loop's reads past the byte
buffer (reachable only when `memory_size` is not a multiple of 8, which
the writer never produces) are modelled as zero. -/
def parseTerse (s : List Char) : Option TerseData :=
  match findTagGo s.length s with
  | none => none
  | some s1 =>
    let d := takeThrough '>' s1
    if d.getLast? = some '>' then
      let r0 := (d.drop 6).dropLast
      let attrs := if r0.length > 1 ∧ r0.getLast? = some '/' then r0.dropLast else r0
      if d.length ≥ 2 ∧ d.drop (d.length - 2) = "/>".data then
        let M := parseNat (attrLookup attrs "memory_size".data)
        let rest := dropThrough '>' s1
        let bytes := ((rest.map Char.toNat) ++ List.replicate M 0).take M
        let count := (M + 7) / 8
        let padded := bytes ++ List.replicate (count * 8 - M) 0
        some
          { d_prolix_bits := parseNat (attrLookup attrs "prolix_bits".data)
            d_signed := parseNat (attrLookup attrs "signed".data) != 0
            d_block := parseNat (attrLookup attrs "block".data)
            d_size := parseNat (attrLookup attrs "number_of_values".data)
            d_terse_data :=
              (List.range count).map fun j => ofBytesLE ((padded.drop (8 * j)).take 8) }
      else none
    else none

/-- Attribute text of the descriptor written by `operator<<`
(`Terse.hpp:192-197`), as captured by `XML_element`: five
`name="value"` pairs separated by single spaces. -/
def attrsText (P S K M N : List Char) : List Char :=
  "prolix_bits".data ++ '=' :: '"' :: (P ++ '"' :: (' ' :: ("signed".data ++ '=' :: '"' :: (S ++ '"' :: (' ' :: ("block".data ++ '=' :: '"' :: (K ++ '"' :: (' ' :: ("memory_size".data ++ '=' :: '"' :: (M ++ '"' :: (' ' :: ("number_of_values".data ++ '=' :: '"' :: (N ++ '"' :: [])))))))))))))

/-! ### Word-level `Bit_range` write and read (`Bit_pointer.hpp`)

The backing sequence is the codec's default: 64-bit unsigned words
(`Type = uint64_t`), modelled as `mem : Nat → Nat` holding values below
`2^64`.  A flat bit position `pos` addresses bit `pos % 64` of word
`pos / 64`.  The source paths modelled are the `sizeof(T) ≤ sizeof(Type)`
branches, the only ones reachable with a 64-bit backing. -/

/-- Model of `Bit_range::operator=(T value)` (`Bit_pointer.hpp:659-689`,
branch `sizeof(T) ≤ sizeof(Type)`) for a `w`-bit value type: mask the
value pattern to the range size (shift computed in the promoted width —
de-facto count semantics, the `s = w` hole), clear the destination bits
with a 64-bit mask, deposit, and touch the following word exactly when
the range crosses it. -/
def Bit_range_assign (mem : Nat → Nat) (pos s w : Nat) (vpat : Nat) : Nat → Nat :=
  let k := pos / 64
  let b := pos % 64
  let value := vpat &&& (2 ^ (s % intWidth w) - 1)
  let mask := 2 ^ (s % 64) - 1
  fun i =>
    if i = k then
      ((mem k &&& ((2 ^ 64 - 1) ^^^ ((mask <<< b) % 2 ^ 64))) ||| ((value <<< b) % 2 ^ 64)) % 2 ^ 64
    else if 64 - b < s ∧ i = k + 1 then
      ((mem (k + 1) &&& ((2 ^ 64 - 1) ^^^ (mask >>> (64 - b)))) ||| (value >>> (64 - b))) % 2 ^ 64
    else mem i

/-- Raw extraction step shared by `Bit_range::operator T`
(`Bit_pointer.hpp:597-611`): the first word shifted down to the range
start, truncated into the `w`-bit result, OR-combined with the following
word when the range crosses it. -/
def Bit_range_readRaw (mem : Nat → Nat) (pos s w : Nat) : Nat :=
  let k := pos / 64
  let b := pos % 64
  let r0 := (mem k >>> b) % 2 ^ w
  if b + s > 64 then (r0 ||| ((mem (k + 1) <<< (64 - b)) % 2 ^ 64)) % 2 ^ w else r0

/-- Model of `Bit_range::operator T` for an unsigned `w`-bit target
(`Bit_pointer.hpp:597-617`): raw extraction masked with
`(T(1) << size) - 1` (promoted-width shift, de-facto count semantics). -/
def Bit_range_castU (mem : Nat → Nat) (pos s w : Nat) : Nat :=
  if s = 0 then 0
  else Bit_range_readRaw mem pos s w &&& ((2 ^ (s % intWidth w) - 1) % 2 ^ w)

/-- Model of `Bit_range::operator T` for a signed `w`-bit target
(`Bit_pointer.hpp:597-617`): as the unsigned read, then `result | ~mask`
when bit `size - 1` of the masked result is set, the result interpreted
as a `w`-bit two's-complement value. -/
def Bit_range_castS (mem : Nat → Nat) (pos s w : Nat) : Int :=
  if s = 0 then 0
  else
    let mask := (2 ^ (s % intWidth w) - 1) % 2 ^ w
    let res := Bit_range_readRaw mem pos s w &&& mask
    if res &&& (2 ^ ((s - 1) % intWidth w) % 2 ^ w) ≠ 0 then
      toVal w (res ||| ((2 ^ w - 1) ^^^ mask))
    else toVal w res

/-- Sign extension of the low `s` bits of `v`: the reference value the
spec promises for a signed read-back. -/
def sext (s : Nat) (v : Int) : Int :=
  if s = 0 then 0 else (v + 2 ^ (s - 1)) % (2 : Int) ^ s - 2 ^ (s - 1)

/-! ### Greyscale TIFF container (`Grey_tif.hpp`)

The model covers the raw (`Grey_tif<std::byte>`) container holding
16-bit unsigned pixels — the shape the claims exercise — parameterised
by the host's endianness.  The buffer is a byte list; `reinterpret_cast`
stores and loads are byte-serialisations in the host's native order. -/

inductive Endian where
  | little : Endian
  | big : Endian
deriving DecidableEq

/-- Bytes of the `n`-byte value `v`, least significant first. -/
def natBytesLE (n v : Nat) : List Nat := (List.range n).map fun i => (v >>> (8 * i)) % 256

/-- Native-order byte image of an `n`-byte store on host `e`. -/
def wrN (e : Endian) (n v : Nat) : List Nat :=
  match e with
  | .little => natBytesLE n v
  | .big => (natBytesLE n v).reverse

/-- Native-order load of an `n`-byte value at offset `off` on host `e`. -/
def rdN (e : Endian) (n : Nat) (buf : List Nat) (off : Nat) : Nat :=
  let bs := (List.range n).map fun i => buf.getD (off + i) 0
  ofBytesLE (match e with | .little => bs | .big => bs.reverse)

/-- In-place store of the bytes `bs` at offset `off`. -/
def storeAt (buf : List Nat) (off : Nat) (bs : List Nat) : List Nat :=
  buf.take off ++ bs ++ buf.drop (off + bs.length)

/-- The 16-bit byte swap `(r << 8) | (r >> 8)` of `Grey_tif::f_int16`. -/
def bswap16 (v : Nat) : Nat := ((v <<< 8) ||| (v >>> 8)) % 2 ^ 16

/-- The 32-bit byte swap of `Grey_tif::f_int32` / `f_scan_images`. -/
def bswap32 (v : Nat) : Nat :=
  ((v <<< 24) ||| ((v &&& 0xff00) <<< 8) ||| ((v >>> 8) &&& 0xff00) ||| (v >>> 24)) % 2 ^ 32

/-- Buffer and last-IFD-offset state of a `Grey_tif` object
(`Grey_tif.hpp:565-566`). -/
structure GreyTifState where
  d_tif : List Nat
  d_last_ifd_offset : Nat
deriving DecidableEq

/-- Parsed per-image record: the runtime pixel-type traits
(`POD_type_traits`), the dimensions, and the pixel values as read
through the typed span on the scanning host. -/
structure ImageRec where
  size : Nat
  is_signed : Bool
  is_integral : Bool
  dim0 : Nat
  dim1 : Nat
  pixels : List Nat
deriving DecidableEq

/-- Model of the default constructor (`Grey_tif.hpp:316-323`): an 8-byte
header with the host's byte-order mark, the magic 42 in native order, a
zero first-IFD offset, and `d_last_ifd_offset = 4`. -/
def greyTifEmpty (e : Endian) : GreyTifState :=
  ⟨[(if e = .little then 73 else 77), (if e = .little then 73 else 77)] ++
    wrN e 2 42 ++ [0, 0, 0, 0], 4⟩

/-- One IFD entry written by `Grey_tif::f_set_ifd` (`Grey_tif.hpp:795-806`):
tag, type, count 1, and a 16- or 32-bit value at offset 8 of the entry
(the remaining value bytes stay zero from the enclosing resize). -/
def f_set_ifd (e : Endian) (buf : List Nat) (index : Nat) (tag typ val : Nat) : List Nat :=
  let b1 := storeAt buf index (wrN e 2 tag)
  let b2 := storeAt b1 (index + 2) (wrN e 2 typ)
  let b3 := storeAt b2 (index + 4) (wrN e 4 1)
  if typ = 3 then storeAt b3 (index + 8) (wrN e 2 val)
  else storeAt b3 (index + 8) (wrN e 4 val)

/-- Byte-building part of `Grey_tif<std::byte>::push_back(container, dim)`
for a `uint16_t` container (`Grey_tif.hpp:486-534`): append the pixel
bytes in native order, pad to an even length, patch the previous
next-IFD offset, and write the 7-entry IFD (width, length,
bits-per-sample 16, compression 1, photometric 1, strip offset, sample
format 1) followed by a zero next-IFD offset. -/
def pushBackBytesU16 (e : Endian) (st : GreyTifState) (pixels : List Nat)
    (dim0 dim1 : Nat) : GreyTifState :=
  let index0 := st.d_tif.length
  let data_start := index0
  let buf1 := st.d_tif ++ List.replicate (dim0 * dim1 * 2 + 7 * 12 + 6) 0
  let buf2 := storeAt buf1 index0 (pixels.flatMap (wrN e 2))
  let index1 := index0 + 2 * pixels.length
  let padded := buf2.length % 2 = 1
  let buf3 := if padded then buf2 ++ [0] else buf2
  let index2 := if padded then index1 + 1 else index1
  let buf4 := storeAt buf3 st.d_last_ifd_offset (wrN e 4 index2)
  let buf5 := storeAt buf4 index2 (wrN e 2 7)
  let i0 := index2 + 2
  let buf6 := f_set_ifd e buf5 i0 0x0100 3 dim0
  let buf7 := f_set_ifd e buf6 (i0 + 12) 0x0101 3 dim1
  let buf8 := f_set_ifd e buf7 (i0 + 24) 0x0102 3 16
  let buf9 := f_set_ifd e buf8 (i0 + 36) 0x0103 3 1
  let buf10 := f_set_ifd e buf9 (i0 + 48) 0x0106 3 1
  let buf11 := f_set_ifd e buf10 (i0 + 60) 0x0111 4 data_start
  let buf12 := f_set_ifd e buf11 (i0 + 72) 0x0153 3 1
  let buf13 := storeAt buf12 (i0 + 84) [0, 0, 0, 0]
  ⟨buf13, i0 + 84⟩

/-- Bounds-checked native read of `n ∈ {2,4}` bytes that, on a foreign
buffer (`NATIVE = false`), byte-swaps the value and writes it back, as
`Grey_tif::f_int16` / `f_int32` do (`Grey_tif.hpp:812-824`).  The source
performs an out-of-bounds access where this returns `none`. -/
def rdSwap (e : Endian) (native : Bool) (n : Nat) (buf : List Nat) (off : Nat) :
    Option (Nat × List Nat) :=
  if off + n ≤ buf.length then
    let v := rdN e n buf off
    if native then some (v, buf)
    else
      let v' := if n = 2 then bswap16 v else bswap32 v
      some (v', storeAt buf off (wrN e n v'))
  else none

/-- Accumulator of the IFD-entry loop of `Grey_tif::f_make_Image`
(`Grey_tif.hpp:690-793`). -/
structure ScanAcc where
  dim0 : Nat
  dim1 : Nat
  bits : Nat
  strip0 : Nat
  sgn : Bool
  intg : Bool
deriving DecidableEq

/-- One pass of the entry loop of `f_make_Image`: process `n` 12-byte
IFD entries starting at `cur`, threading the buffer (entry fields are
byte-swapped in place on a foreign host).  Value types 1/2/6/7 read one
byte, 3/8 a 16-bit value, 4/9/11 a 32-bit value; the rational and
double types (5/10/12) read their 32-bit offset field (their pointed-to
data does not reach any recorded field and is not modelled; the writer
never emits them).  Tags recorded: 0x0100/0x0101 dimensions, 0x0102
bits-per-sample when in {8,16,32,64}, 0x0111 the single strip offset
(for a multi-offset entry the source reads the offset array; only the
warning compares further entries), 0x0153 sample format. -/
def scanEntries (e : Endian) (native : Bool) :
    Nat → List Nat → Nat → ScanAcc → Option (List Nat × Nat × ScanAcc)
  | 0, buf, cur, acc => some (buf, cur, acc)
  | n + 1, buf, cur, acc =>
    match rdSwap e native 2 buf cur with
    | none => none
    | some (tag, buf1) =>
      match rdSwap e native 2 buf1 (cur + 2) with
      | none => none
      | some (typ, buf2) =>
        match rdSwap e native 4 buf2 (cur + 4) with
        | none => none
        | some (cnt, buf3) =>
          let rdVal : Option (Nat × List Nat) :=
            if typ = 1 ∨ typ = 2 ∨ typ = 6 ∨ typ = 7 then
              if cur + 9 ≤ buf3.length then some (buf3.getD (cur + 8) 0, buf3) else none
            else if typ = 3 ∨ typ = 8 then rdSwap e native 2 buf3 (cur + 8)
            else if typ = 4 ∨ typ = 9 then rdSwap e native 4 buf3 (cur + 8)
            else if typ = 5 ∨ typ = 10 ∨ typ = 11 ∨ typ = 12 then
              match rdSwap e native 4 buf3 (cur + 8) with
              | none => none
              | some (_, b) => some (0, b)
            else some (0, buf3)
          match rdVal with
          | none => none
          | some (val, buf4) =>
            let strip0 :=
              if tag = 0x0111 then
                if cnt = 1 then some val else some (rdN e 4 buf4 val)
              else none
            let acc' : ScanAcc :=
              { dim0 := if tag = 0x0100 then val else acc.dim0
                dim1 := if tag = 0x0101 then val else acc.dim1
                bits := if tag = 0x0102 ∧ (val = 8 ∨ val = 16 ∨ val = 32 ∨ val = 64)
                        then val else acc.bits
                strip0 := strip0.getD acc.strip0
                sgn := if tag = 0x0153 ∧ val ≠ 1 then true else acc.sgn
                intg := if tag = 0x0153 ∧ val = 3 then false else acc.intg }
            scanEntries e native n buf4 (cur + 12) acc'

/-- Byte order normalisation of the pixel strip on a foreign host
(`Grey_tif.hpp:780-789`): each pixel element of the strip is byte-swapped
in place. -/
def swapStrip (buf : List Nat) (strip0 len c : Nat) : List Nat :=
  storeAt buf strip0
    ((List.range (len / c)).flatMap fun j =>
      (((buf.drop (strip0 + c * j)).take c).reverse))

/-- Model of `Grey_tif::f_make_Image<NATIVE>` (`Grey_tif.hpp:690-793`):
read the entry count, scan the entries, record the next-IFD position,
read the next-IFD offset, byte-swap the pixel strip on a foreign host,
and materialise the image record (runtime type traits, dimensions, and
the pixel values as seen through the typed span on this host).  `none`
where the source would read or write out of bounds. -/
def f_make_Image (e : Endian) (native : Bool) (buf : List Nat) (index : Nat) :
    Option (List Nat × Nat × Nat × ImageRec) :=
  match rdSwap e native 2 buf index with
  | none => none
  | some (tag_count, buf1) =>
    match scanEntries e native tag_count buf1 (index + 2) ⟨0, 0, 0, 0, false, true⟩ with
    | none => none
    | some (buf2, cur, acc) =>
      let lastIfd := cur
      match rdSwap e native 4 buf2 cur with
      | none => none
      | some (next, buf3) =>
        let c := acc.bits / 8
        let len := acc.dim0 * acc.dim1 * c
        if acc.strip0 + len ≤ buf3.length then
          let buf4 := if native ∨ c ≤ 1 then buf3 else swapStrip buf3 acc.strip0 len c
          let px := (List.range (acc.dim0 * acc.dim1)).map fun i =>
            rdN e c buf4 (acc.strip0 + c * i)
          some (buf4, lastIfd, next,
            ⟨c, acc.sgn, acc.intg, acc.dim0, acc.dim1, px⟩)
        else none

/-- Fueled IFD-chain walk of `Grey_tif::f_scan_images`
(`Grey_tif.hpp:668-677`). -/
def scanChain (e : Endian) (native : Bool) :
    Nat → List Nat → Nat → Option (List Nat × Nat × List ImageRec)
  | 0, _, _ => none
  | f + 1, buf, index =>
    if index = 0 then some (buf, 0, [])
    else
      match f_make_Image e native buf index with
      | none => none
      | some (buf', lastIfd, next, img) =>
        match scanChain e native f buf' next with
        | none => none
        | some (buf'', last'', imgs) =>
          some (buf'', (if next = 0 then lastIfd else last''), img :: imgs)

/-- Model of `Grey_tif::f_scan_images` (`Grey_tif.hpp:655-688`) on a host
of endianness `e`: the buffer counts as native exactly when its byte-order
mark is `II` AND the host is little-endian (`Grey_tif.hpp:659`); a
non-native buffer has its byte-order mark flipped, the magic rewritten
and the first-IFD offset byte-swapped before the chain walk.
Regularisation does not apply to the raw (`std::byte`) container
modelled here. -/
def f_scan_images (e : Endian) (st : GreyTifState) :
    Option (GreyTifState × List ImageRec) :=
  let buf := st.d_tif
  let native := buf.getD 0 0 = 73 ∧ e = .little
  let buf1 :=
    if native then buf
    else storeAt buf 0 [(if buf.getD 0 0 = 77 then 73 else 77), (if buf.getD 0 0 = 77 then 73 else 77)]
  let buf2 := storeAt buf1 2 (wrN e 2 42)
  let index0 := rdN e 4 buf2 4
  let index1 := if native then index0 else bswap32 index0
  let buf3 := if native then buf2 else storeAt buf2 4 (wrN e 4 index1)
  match scanChain e native (buf3.length + 1) buf3 index1 with
  | none => none
  | some (buf4, lastIfd, imgs) =>
    some (⟨buf4, if imgs = [] then st.d_last_ifd_offset else lastIfd⟩, imgs)

/-- Model of `Grey_tif<std::byte>::push_back` of a `uint16_t` container
(`Grey_tif.hpp:457-537`): write the pixel bytes and the new IFD, then
rescan the whole buffer (`Grey_tif.hpp:535`).  `none` when the rescan
performs an out-of-bounds access. -/
def pushBackU16 (e : Endian) (st : GreyTifState) (pixels : List Nat)
    (dim0 dim1 : Nat) : Option (GreyTifState × List ImageRec) :=
  f_scan_images e (pushBackBytesU16 e st pixels dim0 dim1)

/-- Model of the stream constructor `Grey_tif(std::istream&)`
(`Grey_tif.hpp:344-355`) reading the byte sequence `bytes` on a host of
endianness `e`: validate the byte-order mark and magic, then scan. -/
def greyTifOfBytes (e : Endian) (bytes : List Nat) : Option (GreyTifState × List ImageRec) :=
  if (bytes.getD 0 0 = 73 ∨ bytes.getD 0 0 = 77) ∧ bytes.getD 0 0 = bytes.getD 1 0 ∧
      (if bytes.getD 0 0 = 73 then bytes.getD 2 0 else bytes.getD 3 0) = 42 then
    f_scan_images e ⟨bytes, 4⟩
  else none

/-! ## Supporting lemmas -/

theorem toBitsLE_length (k n : Nat) : (toBitsLE k n).length = k := by
  induction k generalizing n with
  | zero => rfl
  | succ k ih => simp [toBitsLE, ih]

theorem ofBitsLE_toBitsLE (k n : Nat) : ofBitsLE (toBitsLE k n) = n % 2 ^ k := by
  induction k generalizing n with
  | zero => simp [toBitsLE, ofBitsLE, Nat.mod_one]
  | succ k ih =>
    have h2 : (2 : Nat) ^ (k + 1) = 2 * 2 ^ k := by rw [Nat.pow_succ, Nat.mul_comm]
    have hm : n % (2 * 2 ^ k) = n % 2 + 2 * (n / 2 % 2 ^ k) := Nat.mod_mul
    rw [toBitsLE, ofBitsLE, ih, h2, hm]
    rcases Nat.mod_two_eq_zero_or_one n with h | h <;> simp [h]

theorem valLE_toBitsLE_append (k n : Nat) (rest : List Bool) :
    valLE k (toBitsLE k n ++ rest) = n % 2 ^ k := by
  have h := List.take_left (toBitsLE k n) rest
  rw [toBitsLE_length] at h
  rw [valLE, h, ofBitsLE_toBitsLE]

theorem drop_toBitsLE_append (k n : Nat) (rest : List Bool) :
    (toBitsLE k n ++ rest).drop k = rest := by
  have h := List.drop_left (toBitsLE k n) rest
  rwa [toBitsLE_length] at h

theorem toBitsLE_add (a b n : Nat) :
    toBitsLE (a + b) n = toBitsLE a n ++ toBitsLE b (n / 2 ^ a) := by
  induction a generalizing n with
  | zero => simp [toBitsLE]
  | succ a ih =>
    have h1 : a + 1 + b = (a + b) + 1 := by omega
    rw [h1, toBitsLE, toBitsLE, ih, List.cons_append]
    congr 2
    rw [Nat.div_div_eq_div_mul]
    congr 1
    rw [Nat.pow_succ, Nat.mul_comm]

/-! ## Claim theorems -/

/-- Claim C1 (failing-input evaluation).  The claim asserts that every
finite sequence of unsigned 8/16/32-bit values round-trips through
`Terse(data, size, B)` and `Terse::prolix` for `B ∈ {1, 8, 12, 64}`.
For the 32-bit input `[2^31]` the per-block width is `s = 32`, and the
decoder's field mask `(T(1) << 32) - 1` (`Bit_pointer.hpp:765`) is an
undefined 32-bit shift that mainstream targets evaluate to `(1 << 0) - 1
= 0`, so every such value decodes to `0` — with any of the claimed block
sizes. -/
theorem terse_roundtrip_u32_high_bit_lost :
    Terse_prolix (Terse_compress 32 false [(2 : Int) ^ 31] 12) 32 false = some [0] ∧
    Terse_prolix (Terse_compress 32 false [(2 : Int) ^ 31] 1) 32 false = some [0] ∧
    (some [(2 : Int) ^ 31] : Option (List Int)) ≠ some [0] := by
  refine ⟨by decide, by decide, by decide⟩

/-- Claim C2 (failing-input evaluation).  The claim asserts the signed
round trip including the minimum value of the element type.  For the
8-bit input `[-128, 127]` (one block, default block size 12) the
accumulation `setbits |= std::abs(*p)` at `Terse.hpp:249` overflows the
`int8_t` accumulator: `abs(-128) = 128` wraps to `-128`, OR-ing `127`
makes `setbits = -1`, so `highest_set_bit` yields a block width of just
`s = 2`.  The two values are stored as their low two bits and decode as
`[0, -1]`.  This run is entirely defined behaviour (all arithmetic is
int-promoted). -/
theorem terse_roundtrip_i8_min_max_lost :
    Terse_prolix (Terse_compress 8 true [-128, 127] 12) 8 true = some [0, -1] ∧
    significant_bits 8 true [-128, 127] = 2 ∧
    ([(-128 : Int), 127] ≠ [0, -1]) := by
  refine ⟨by decide, by decide, by decide⟩

/-- Claim C5 (failing-input evaluation).  The claim says the only
signedness restriction of `Terse::prolix` is that signed data cannot
decode into an unsigned target, so decoding unsigned data into a
sufficiently wide signed target is within contract and succeeds.  But
`Terse.hpp:151` asserts `d_signed == std::is_signed_v<target>` — an
equality — so decoding the unsigned-encoded `[3]` into a signed 16-bit
target aborts (and with assertions disabled, `get_range` would
sign-extend the 2-bit field `11` and deliver `-1`, not `3`, contradicting
the contract as well). -/
theorem prolix_unsigned_to_signed_aborts :
    Terse_prolix (Terse_compress 16 false [3] 12) 16 true = none ∧
    (Terse_compress 16 false [3] 12).d_signed = false ∧
    Terse_prolix (Terse_compress 16 false [3] 12) 16 false = some [3] := by
  refine ⟨by decide, by decide, by decide⟩

set_option maxRecDepth 100000 in
/-- Claim C8 (failing-input evaluation).  The claim asserts that a TIFF
byte sequence produced by the `Grey_tif` emitter on any host parses
identically on hosts of either endianness.  On a big-endian host the
emitter itself fails: `push_back` ends with `f_scan_images`
(`Grey_tif.hpp:535`), whose nativeness test `d_tif[0] == 'I' &&
std::endian::native == little` (`Grey_tif.hpp:659`) is false for the
host's own native `MM` buffer, so the freshly written first-IFD offset
(10) is byte-swapped to `0x0A000000` and dereferenced far out of bounds
(modelled as `none`).  The same append on a little-endian host succeeds
and recovers the pixel. -/
theorem grey_tif_push_back_big_endian_host_fails :
    pushBackU16 .big (greyTifEmpty .big) [42] 1 1 = none ∧
    (pushBackU16 .little (greyTifEmpty .little) [42] 1 1).map (fun r => r.2) =
      some [⟨2, false, true, 1, 1, [42]⟩] := by
  exact ⟨by decide, by decide⟩

/-- Claim C3 counterexample.  The claim says the first block of an
emitted Terse stream always carries a full block header and never the
1-bit repeat marker, the four bits `0 000` for an all-zero first block.
But `_compress` initialises `prevbits = 0` (`Terse.hpp:240`), so an
all-zero first block compares equal to it and is emitted as the single
repeat bit `1`: the whole stream for the input `[0]` is the one bit `1`. -/
theorem first_zero_block_emits_repeat_marker :
    compressBits 8 false 12 [0] = [true] ∧
    (compressBits 8 false 12 [0]).take 4 ≠ [false, false, false, false] := by
  exact ⟨by decide, by decide⟩

/-- Claim C4 counterexample.  The claim says `memory_size` equals
`⌈bit-count / 8⌉`.  For the input `[0]` the stream is one bit long, yet
`_compress` resizes the word buffer to `1 + bits/64 = 1` backing word of
8 bytes (`Terse.hpp:281`), so `operator<<` writes `memory_size="8"`
where `⌈1/8⌉ = 1`. -/
theorem memory_size_is_not_ceil_bits_div_8 :
    memorySize (Terse_compress 8 false [0] 12) = 8 ∧
    ((compressBits 8 false 12 [0]).length + 7) / 8 = 1 ∧ (8 : Nat) ≠ 1 := by
  exact ⟨by decide, by decide, by decide⟩

/-- Claim C9 counterexample.  The claim allows any width `s` up to the
value type's bit width.  At `s` equal to the full width (here a 32-bit
unsigned value type, `s = 32`) the masks `(T(1) << s) - 1` in
`Bit_range::operator=` and `operator T` are undefined full-width shifts
(de facto `(1 << 0) - 1 = 0`), so assigning `5` and reading it back
yields `0`, not `5 % 2^32 = 5`. -/
theorem bit_range_full_width_roundtrip_fails :
    Bit_range_castU (Bit_range_assign (fun _ => 0) 0 32 32 5) 0 32 32 = 0 ∧
    (5 : Nat) % 2 ^ 32 = 5 ∧ (0 : Nat) ≠ 5 := by
  exact ⟨by decide, by decide, by decide⟩

/-- Claim C7.  For every block width `s ∈ [0, 73]` and any previous
width, the header emitted by `_compress` (`headerEncode`) has exactly
the table's bit length — 1 bit for a repeat, 4 bits for `s ∈ [0,6]`,
6 bits for `s ∈ [7,9]`, 12 bits for `s ∈ [10,73]` — and the decoder of
`prolix` (`headerDecode`) consumes exactly those bits and recovers `s`,
leaving the rest of the stream untouched. -/
theorem header_table_roundtrip (s prev : Nat) (rest : List Bool) (hs : s ≤ 73) :
    ((headerEncode prev s).length =
      if s = prev then 1 else if s < 7 then 4 else if s < 10 then 6 else 12) ∧
    headerDecode prev (headerEncode prev s ++ rest) = (s, rest) := by
  by_cases hp : s = prev
  · subst hp
    exact ⟨by simp [headerEncode], by simp [headerEncode, headerDecode]⟩
  · rw [headerEncode, if_neg hp]
    by_cases h7 : s < 7
    · rw [if_pos h7]
      refine ⟨by simp [toBitsLE_length, hp, h7], ?_⟩
      have hv : valLE 3 (toBitsLE 3 s ++ rest) = s := by
        rw [valLE_toBitsLE_append]; omega
      have hd : (toBitsLE 3 s ++ rest).drop 3 = rest := drop_toBitsLE_append 3 s rest
      simp only [List.cons_append, headerDecode, List.headD_cons, List.tail_cons,
        Bool.false_eq_true, if_false, hv, hd]
      rw [if_neg (by omega : ¬ s = 7)]
    · by_cases h10 : s < 10
      · rw [if_neg h7, if_pos h10]
        refine ⟨by simp [toBitsLE_length, hp, h7, h10], ?_⟩
        set v := 7 + (s - 7) * 8 with hvdef
        have hsplit : toBitsLE 5 v ++ rest = toBitsLE 3 v ++ (toBitsLE 2 (v / 2 ^ 3) ++ rest) := by
          rw [show (5 : Nat) = 3 + 2 from rfl, toBitsLE_add, List.append_assoc]
        have hv3 : valLE 3 (toBitsLE 5 v ++ rest) = 7 := by
          rw [hsplit, valLE_toBitsLE_append]; omega
        have hd3 : (toBitsLE 5 v ++ rest).drop 3 = toBitsLE 2 (v / 2 ^ 3) ++ rest := by
          rw [hsplit]; exact drop_toBitsLE_append 3 v _
        have hv2 : valLE 2 (toBitsLE 2 (v / 2 ^ 3) ++ rest) = s - 7 := by
          rw [valLE_toBitsLE_append]; omega
        have hd5 : (toBitsLE 5 v ++ rest).drop 5 = rest := drop_toBitsLE_append 5 v rest
        simp only [List.cons_append, headerDecode, List.headD_cons, List.tail_cons,
          Bool.false_eq_true, if_false, hv3, hd3, hv2, hd5]
        rw [if_pos trivial, if_neg (by omega : ¬ 7 + (s - 7) = 10)]
        exact Prod.ext (by omega) rfl
      · rw [if_neg h7, if_neg h10]
        refine ⟨by simp [toBitsLE_length, hp, h7, h10], ?_⟩
        set v := 31 + (s - 10) * 32 with hvdef
        have hsplit : toBitsLE 11 v ++ rest =
            toBitsLE 3 v ++ (toBitsLE 2 (v / 2 ^ 3) ++ (toBitsLE 6 (v / 2 ^ 3 / 2 ^ 2) ++ rest)) := by
          rw [show (11 : Nat) = 3 + (2 + 6) from rfl, toBitsLE_add, toBitsLE_add]
          simp [List.append_assoc]
        have hv3 : valLE 3 (toBitsLE 11 v ++ rest) = 7 := by
          rw [hsplit, valLE_toBitsLE_append]; omega
        have hd3 : (toBitsLE 11 v ++ rest).drop 3 =
            toBitsLE 2 (v / 2 ^ 3) ++ (toBitsLE 6 (v / 2 ^ 3 / 2 ^ 2) ++ rest) := by
          rw [hsplit]; exact drop_toBitsLE_append 3 v _
        have hv2 : valLE 2 (toBitsLE 2 (v / 2 ^ 3) ++ (toBitsLE 6 (v / 2 ^ 3 / 2 ^ 2) ++ rest)) = 3 := by
          rw [valLE_toBitsLE_append]; omega
        have hd5 : (toBitsLE 11 v ++ rest).drop 5 = toBitsLE 6 (v / 2 ^ 3 / 2 ^ 2) ++ rest := by
          rw [show (11 : Nat) = 5 + 6 from rfl, toBitsLE_add, List.append_assoc,
            drop_toBitsLE_append]
          congr 2
          rw [Nat.div_div_eq_div_mul]
          norm_num
        have hv6 : valLE 6 (toBitsLE 6 (v / 2 ^ 3 / 2 ^ 2) ++ rest) = s - 10 := by
          rw [valLE_toBitsLE_append]; omega
        have hd11 : (toBitsLE 11 v ++ rest).drop 11 = rest := drop_toBitsLE_append 11 v rest
        simp only [List.cons_append, headerDecode, List.headD_cons, List.tail_cons,
          Bool.false_eq_true, if_false, hv3, hd3, hv2, hd5, hv6, hd11]
        rw [if_pos trivial, if_pos trivial]
        exact Prod.ext (by omega) rfl

theorem header_table_roundtrip_witness :
    (73 : Nat) ≤ 73 ∧
    headerDecode 0 (headerEncode 0 73 ++ [true, false]) = (73, [true, false]) :=
  ⟨by decide, (header_table_roundtrip 73 0 [true, false] (by decide)).2⟩

theorem blockSetbits_zeros (w : Nat) (sgn : Bool) (blk : List Int)
    (h : ∀ v ∈ blk, v = 0) : blockSetbits w sgn blk = 0 := by
  have habs : absProm w 0 = 0 := by
    rw [absProm, if_neg]
    · simp
    · intro hc
      have := pow_pos (by norm_num : (0 : Int) < 2) (intWidth w - 1)
      omega
  induction blk with
  | nil => cases sgn <;> rfl
  | cons v vs ih =>
    have hv : v = 0 := h v (List.mem_cons_self v vs)
    have ih' := ih fun x hx => h x (List.mem_cons_of_mem v hx)
    cases sgn with
    | false =>
      simp only [blockSetbits, List.foldl_cons, hv] at ih' ⊢
      simpa using ih'
    | true =>
      simp only [blockSetbits, List.foldl_cons, hv, habs] at ih' ⊢
      simpa [toPat] using ih'

theorem significant_bits_zeros (w : Nat) (sgn : Bool) (blk : List Int)
    (h : ∀ v ∈ blk, v = 0) : significant_bits w sgn blk = 0 := by
  have hb := blockSetbits_zeros w sgn blk h
  have hpos : (0 : Nat) < 2 ^ (w - 1) := pow_pos (by norm_num) (w - 1)
  cases sgn <;> simp [significant_bits, hb, toVal, hpos, highest_set_bit, hsbGo]

theorem compressGo_all_zeros (w : Nat) (sgn : Bool) (B : Nat) (hB : 1 ≤ B) :
    ∀ f n, n ≤ f →
      compressGo w sgn B f (List.replicate n 0) 0 = List.replicate ((n + B - 1) / B) true := by
  intro f
  induction f with
  | zero =>
    intro n hn
    have : n = 0 := by omega
    subst this
    simp [compressGo, Nat.div_eq_of_lt (by omega : B - 1 < B)]
  | succ f ih =>
    intro n hn
    match n with
    | 0 => simp [compressGo, Nat.div_eq_of_lt (by omega : B - 1 < B)]
    | m + 1 =>
      rw [List.replicate_succ, compressGo]
      have hz : ∀ v ∈ (0 : Int) :: (List.replicate m (0 : Int)).take (B - 1), v = 0 := by
        intro v hv
        rcases List.mem_cons.mp hv with h | h
        · exact h
        · exact List.eq_of_mem_replicate (List.mem_of_mem_take h)
      rw [significant_bits_zeros w sgn _ hz]
      have hdrop : (List.replicate m (0 : Int)).drop (B - 1) =
          List.replicate (m - (B - 1)) (0 : Int) := List.drop_replicate 0 (B - 1) m
      rw [hdrop, ih (m - (B - 1)) (by omega)]
      have harith : (m + 1 + B - 1) / B = (m - (B - 1) + B - 1) / B + 1 := by
        rcases Nat.lt_or_ge m B with hc | hc
        · by_cases hmB : m + 1 ≤ B
          · have h1 : m + 1 + B - 1 = m + B := by omega
            have h2 : m - (B - 1) = 0 := by omega
            rw [h1, h2]
            have : (m + B) / B = 1 := by
              apply Nat.div_eq_of_lt_le <;> omega
            rw [this, Nat.zero_add, Nat.div_eq_of_lt (by omega : B - 1 < B)]
          · omega
        · have h1 : m + 1 + B - 1 = (m - (B - 1) + B - 1) + B := by omega
          rw [h1, Nat.add_div_right _ (by omega : 0 < B)]
      rw [harith, List.replicate_succ]
      simp [headerEncode]

/-- Claim C3 (amended).  The source initialises `prevbits = 0`
(`Terse.hpp:240`), so a first block whose computed width is `0` — in
particular for an all-zeros input — is emitted as the single repeat
marker `1`, not as a full `0 000` header: (a) an all-zeros input of any
length produces exactly one `1` bit per block and nothing else; (b) in
general the first emitted bit is the repeat marker precisely when the
first block's width is `0`, and a full header (leading bit `0`)
otherwise. -/
theorem first_block_header_amended (w : Nat) (sgn : Bool) (B : Nat) (hB : 1 ≤ B) :
    (∀ n, compressBits w sgn B (List.replicate n 0) =
      List.replicate ((n + B - 1) / B) true) ∧
    (∀ v vs, (compressBits w sgn B (v :: vs)).headD false =
      decide (significant_bits w sgn (v :: vs.take (B - 1)) = 0)) := by
  constructor
  · intro n
    rw [compressBits, List.length_replicate]
    exact compressGo_all_zeros w sgn B hB n n le_rfl
  · intro v vs
    rw [compressBits, List.length_cons, compressGo]
    by_cases hz : significant_bits w sgn (v :: vs.take (B - 1)) = 0
    · simp [headerEncode, hz]
    · simp [headerEncode, hz]

theorem first_block_header_amended_witness :
    (1 : Nat) ≤ 12 ∧
    compressBits 8 false 12 (List.replicate 1000 0) = List.replicate 84 true := by
  refine ⟨by decide, ?_⟩
  have h := (first_block_header_amended 8 false 12 (by decide)).1 1000
  norm_num at h
  exact h

/-- Claim C10.  Both sides start from width 0: (a) `prolix` initialises
`significant_bits = 0` (`Terse.hpp:153`), so any Terse stream whose
first header bit is the repeat marker `1` decodes its first block —
`min block size` values — as zeros, for any in-contract target; (b)
`_compress` initialises `prevbits = 0` (`Terse.hpp:240`), so a first
block of width 0 is emitted as that same repeat marker.  The two agree
on the implicit pre-first-block width. -/
theorem initial_width_agreement (t : TerseData) (tw : Nat) (tsgn : Bool)
    (h1 : t.d_prolix_bits ≤ tw) (h2 : t.d_signed = tsgn)
    (hB : 1 ≤ t.d_block) (hN : 1 ≤ t.d_size)
    (hbit : (wordsToBits t.d_terse_data).headD false = true) :
    (∃ out, Terse_prolix t tw tsgn = some out ∧
      out.take (min t.d_block t.d_size) =
        List.replicate (min t.d_block t.d_size) 0) ∧
    (∀ w sgn vals, vals ≠ [] →
      significant_bits w sgn (vals.take t.d_block) = 0 →
      (compressBits w sgn t.d_block vals).headD false = true) := by
  constructor
  · rw [Terse_prolix, if_pos ⟨h1, h2⟩]
    obtain ⟨n, hn⟩ : ∃ n, t.d_size = n + 1 := ⟨t.d_size - 1, by omega⟩
    rw [hn]
    simp only [prolixGo, headerDecode, hbit, if_true, if_pos rfl]
    have hcount : 1 + min (t.d_block - 1) n = min t.d_block (n + 1) := by omega
    rw [hcount]
    refine ⟨_, rfl, ?_⟩
    have h := List.take_left (List.replicate (min t.d_block (n + 1)) (0 : Int))
      (prolixGo tw tsgn t.d_block n (n + 1 - min t.d_block (n + 1))
        (wordsToBits t.d_terse_data).tail 0)
    rwa [List.length_replicate] at h
  · intro w sgn vals hne h0
    match vals, hne with
    | v :: vs, _ =>
      have htake : (v :: vs).take t.d_block = v :: vs.take (t.d_block - 1) := by
        have hbb : t.d_block = (t.d_block - 1) + 1 := by omega
        rw [hbb, List.take_succ_cons]
        simp
      rw [htake] at h0
      rw [compressBits, List.length_cons, compressGo, h0]
      simp [headerEncode]

theorem initial_width_agreement_witness :
    ((⟨8, false, 12, 5, [1]⟩ : TerseData).d_prolix_bits ≤ 8 ∧
      (⟨8, false, 12, 5, [1]⟩ : TerseData).d_signed = false ∧
      1 ≤ (⟨8, false, 12, 5, [1]⟩ : TerseData).d_block ∧
      1 ≤ (⟨8, false, 12, 5, [1]⟩ : TerseData).d_size ∧
      (wordsToBits (⟨8, false, 12, 5, [1]⟩ : TerseData).d_terse_data).headD false = true) ∧
    (∃ out, Terse_prolix (⟨8, false, 12, 5, [1]⟩ : TerseData) 8 false = some out ∧
      out.take (min 12 5) = List.replicate (min 12 5) 0) := by
  refine ⟨⟨by decide, by decide, by decide, by decide, by decide⟩, ?_⟩
  exact (initial_width_agreement ⟨8, false, 12, 5, [1]⟩ 8 false (by decide) (by decide)
    (by decide) (by decide) (by decide)).1

theorem payloadBytes_length (t : TerseData) :
    (payloadBytes t).length = 8 * t.d_terse_data.length := by
  rw [payloadBytes]
  induction t.d_terse_data with
  | nil => rfl
  | cons x xs ih => simp_all [List.flatMap_cons, Nat.mul_add, Nat.add_comm]

/-- Claim C4 (amended).  In the descriptor written by `operator<<`
(`Terse.hpp:189-207`) the `memory_size` attribute `M` is the byte size
of the word buffer left by `_compress`, namely
`sizeof(uint64_t) * (1 + ⌊bit-count / 64⌋)` — a multiple of 8 that can
exceed `⌈bit-count / 8⌉` by up to 8 bytes (`Terse.hpp:281`) — and
exactly `M` payload bytes follow the descriptor's closing `>`; the
attributes record the element width as `prolix_bits` and the value count
as `number_of_values`. -/
theorem memory_size_amended (w : Nat) (sgn : Bool) (vals : List Int) (B : Nat) :
    memorySize (Terse_compress w sgn vals B) =
      8 * (1 + (compressBits w sgn B vals).length / 64) ∧
    (payloadBytes (Terse_compress w sgn vals B)).length =
      memorySize (Terse_compress w sgn vals B) ∧
    (Terse_compress w sgn vals B).d_prolix_bits = w ∧
    (Terse_compress w sgn vals B).d_size = vals.length := by
  refine ⟨?_, ?_, rfl, rfl⟩
  · rw [memorySize, Terse_compress, packWords]
    simp [Nat.mul_comm]
  · rw [payloadBytes_length, memorySize, Nat.mul_comm]

theorem bit_range_write_read_core (mem : Nat → Nat) (pos s w : Nat)
    (hw : w ≤ 64) (hsw : s ≤ w) (hs : s < w ∨ w < 32) (vpat : Nat) :
    Bit_range_readRaw (Bit_range_assign mem pos s w vpat) pos s w &&& (2 ^ s - 1) =
      vpat % 2 ^ s := by
  have hsiw : s % intWidth w = s := Nat.mod_eq_of_lt (by rw [intWidth]; omega)
  have hs64 : s % 64 = s := Nat.mod_eq_of_lt (by omega)
  have hb : pos % 64 < 64 := Nat.mod_lt _ (by norm_num)
  set b := pos % 64 with hbdef
  set k := pos / 64 with hkdef
  set value := vpat % 2 ^ s with hvdef
  have hvlt : value < 2 ^ s := Nat.mod_lt _ (pow_pos (by norm_num) s)
  set W0 : Nat :=
    ((mem k &&& ((2 ^ 64 - 1) ^^^ (((2 ^ s - 1) <<< b) % 2 ^ 64))) |||
      ((value <<< b) % 2 ^ 64)) % 2 ^ 64 with hW0def
  set W1 : Nat :=
    ((mem (k + 1) &&& ((2 ^ 64 - 1) ^^^ ((2 ^ s - 1) >>> (64 - b)))) |||
      (value >>> (64 - b))) % 2 ^ 64 with hW1def
  have hmk : Bit_range_assign mem pos s w vpat k = W0 := by
    simp only [Bit_range_assign, hsiw, hs64, Nat.and_pow_two_sub_one_eq_mod, if_pos rfl,
      ← hbdef, ← hkdef, ← hvdef, ← hW0def]
  have hmk1 : Bit_range_assign mem pos s w vpat (k + 1) =
      if 64 - b < s then W1 else mem (k + 1) := by
    simp only [Bit_range_assign, hsiw, hs64, Nat.and_pow_two_sub_one_eq_mod,
      ← hbdef, ← hkdef, ← hvdef, ← hW1def]
    rw [if_neg (by omega : ¬ k + 1 = k)]
    by_cases hc : 64 - b < s
    · rw [if_pos ⟨hc, trivial⟩, if_pos hc]
    · rw [if_neg (by tauto), if_neg hc]
  have hW0lt : W0 < 2 ^ 64 := Nat.mod_lt _ (by norm_num)
  rw [Bit_range_readRaw]
  simp only [← hbdef, ← hkdef, hmk, hmk1]
  apply Nat.eq_of_testBit_eq
  intro j
  by_cases hjs : j < s
  case neg =>
    have h1 : (2 ^ s - 1).testBit j = false := by
      simp [Nat.testBit_two_pow_sub_one, hjs]
    have h2 : value.testBit j = false :=
      Nat.testBit_lt_two_pow (lt_of_lt_of_le hvlt (Nat.pow_le_pow_right (by norm_num) (by omega)))
    rw [Nat.testBit_land, h1, Bool.and_false, h2]
  case pos =>
    have hjw : j < w := by omega
    have hj64 : j < 64 := by omega
    have hrhs : value.testBit j = vpat.testBit j := by
      simp [hvdef, Nat.testBit_mod_two_pow, hjs]
    have hW0bit : ∀ i, i < 64 → b ≤ i → i - b < s → W0.testBit i = value.testBit (i - b) := by
      intro i hi hbi his
      simp only [hW0def, Nat.testBit_mod_two_pow, Nat.testBit_lor, Nat.testBit_land,
        Nat.testBit_xor, Nat.testBit_shiftLeft, Nat.testBit_two_pow_sub_one]
      simp [hi, hbi, his]
    by_cases hcross : b + s > 64
    · rw [if_pos (by omega : 64 < b + s), if_pos (by omega : 64 - b < s)]
      by_cases hbj : b + j < 64
      · have h0 : W0.testBit (b + j) = value.testBit j := by
          rw [hW0bit (b + j) hbj (by omega) (by omega)]
          congr 1
          omega
        simp only [Nat.testBit_land, Nat.testBit_mod_two_pow, Nat.testBit_lor,
          Nat.testBit_shiftRight, Nat.testBit_shiftLeft, Nat.testBit_two_pow_sub_one]
        rw [h0]
        have hnb : ¬ (64 - b ≤ j) := by omega
        simp [hjs, hjw, hj64, hnb, hrhs]
      · have h0 : W0.testBit (b + j) = false :=
          Nat.testBit_lt_two_pow (lt_of_lt_of_le hW0lt (Nat.pow_le_pow_right (by norm_num) (by omega)))
        have hW1bit : W1.testBit (b + j - 64) = value.testBit j := by
          simp only [hW1def, Nat.testBit_mod_two_pow, Nat.testBit_lor, Nat.testBit_land,
            Nat.testBit_xor, Nat.testBit_shiftRight, Nat.testBit_two_pow_sub_one]
          have he : 64 - b + (b + j - 64) = j := by omega
          rw [he]
          simp [hjs, show b + j - 64 < 64 by omega]
        simp only [Nat.testBit_land, Nat.testBit_mod_two_pow, Nat.testBit_lor,
          Nat.testBit_shiftRight, Nat.testBit_shiftLeft, Nat.testBit_two_pow_sub_one]
        rw [h0]
        have he2 : j - (64 - b) = b + j - 64 := by omega
        rw [he2, hW1bit]
        simp [hjs, hjw, hj64, show 64 - b ≤ j by omega, hrhs]
    · rw [if_neg (by omega : ¬ 64 < b + s)]
      have h0 : W0.testBit (b + j) = value.testBit j := by
        rw [hW0bit (b + j) (by omega) (by omega) (by omega)]
        congr 1
        omega
      simp only [Nat.testBit_land, Nat.testBit_mod_two_pow, Nat.testBit_shiftRight,
        Nat.testBit_two_pow_sub_one]
      rw [h0]
      simp [hjs, hjw, hrhs]

theorem testBit_top_of_lt (p s : Nat) (hs1 : 1 ≤ s) (hp : p < 2 ^ s) :
    p.testBit (s - 1) = decide (2 ^ (s - 1) ≤ p) := by
  have hpow : (0 : Nat) < 2 ^ (s - 1) := pow_pos (by norm_num) _
  have hdiv : p / 2 ^ (s - 1) < 2 := by
    rw [Nat.div_lt_iff_lt_mul hpow]
    calc p < 2 ^ s := hp
    _ = 2 * 2 ^ (s - 1) := by rw [← Nat.pow_succ']; congr 1; omega
  rw [Nat.testBit_to_div_mod]
  by_cases hle : 2 ^ (s - 1) ≤ p
  · have h1 : 1 ≤ p / 2 ^ (s - 1) := by
      rw [Nat.le_div_iff_mul_le hpow]
      omega
    have : p / 2 ^ (s - 1) = 1 := by omega
    simp [this, hle]
  · have h0 : p / 2 ^ (s - 1) = 0 := Nat.div_eq_of_lt (by omega)
    simp [h0, hle]

theorem sext_cases (s : Nat) (hs1 : 1 ≤ s) (v : Int) :
    sext s v = if 2 ^ (s - 1) ≤ ((v % (2 : Int) ^ s).toNat)
      then (((v % (2 : Int) ^ s).toNat : Int) - 2 ^ s)
      else ((v % (2 : Int) ^ s).toNat : Int) := by
  have hm : (0 : Int) < 2 ^ s := pow_pos (by norm_num) s
  have hr0 : 0 ≤ v % 2 ^ s := Int.emod_nonneg v (by omega)
  have hrlt : v % 2 ^ s < 2 ^ s := Int.emod_lt_of_pos v hm
  have hts : (((v % 2 ^ s).toNat : Int)) = v % 2 ^ s := Int.toNat_of_nonneg hr0
  have hc : (0 : Int) < 2 ^ (s - 1) := pow_pos (by norm_num) _
  have hcs : (2 : Int) ^ (s - 1) + 2 ^ (s - 1) = 2 ^ s := by
    rw [← Int.two_mul, ← pow_succ']
    congr 1
    omega
  have hrr : (v % 2 ^ s) % 2 ^ s = v % 2 ^ s := Int.emod_emod_of_dvd v dvd_rfl
  have hstep : (v + 2 ^ (s - 1)) % 2 ^ s = (v % 2 ^ s + 2 ^ (s - 1)) % 2 ^ s := by
    conv_rhs => rw [Int.add_emod, hrr, ← Int.add_emod]
  rw [sext, if_neg (by omega : ¬ s = 0), hstep]
  by_cases hle : 2 ^ (s - 1) ≤ (v % 2 ^ s).toNat
  · have hleI : (2 : Int) ^ (s - 1) ≤ v % 2 ^ s := by
      calc ((2 : Int) ^ (s - 1)) = ((2 ^ (s - 1) : Nat) : Int) := by push_cast; rfl
      _ ≤ ((v % 2 ^ s).toNat : Int) := by exact_mod_cast hle
      _ = v % 2 ^ s := hts
    have hmod : (v % 2 ^ s + 2 ^ (s - 1)) % 2 ^ s = v % 2 ^ s + 2 ^ (s - 1) - 2 ^ s := by
      have h1 : (v % 2 ^ s + 2 ^ (s - 1)) % 2 ^ s
          = (v % 2 ^ s + 2 ^ (s - 1) - 2 ^ s + 2 ^ s * 1) % 2 ^ s := by
        congr 1
        ring
      rw [h1, Int.add_mul_emod_self_left]
      exact Int.emod_eq_of_lt (by omega) (by omega)
    rw [hmod, if_pos hle]
    omega
  · have hltI : v % 2 ^ s < 2 ^ (s - 1) := by
      calc v % 2 ^ s = ((v % 2 ^ s).toNat : Int) := hts.symm
      _ < ((2 ^ (s - 1) : Nat) : Int) := by exact_mod_cast Nat.lt_of_not_le hle
      _ = 2 ^ (s - 1) := by push_cast; rfl
    have hmod : (v % 2 ^ s + 2 ^ (s - 1)) % 2 ^ s = v % 2 ^ s + 2 ^ (s - 1) :=
      Int.emod_eq_of_lt (by omega) (by omega)
    rw [hmod, if_neg hle]
    omega

theorem toPat_mod (w s : Nat) (hs : s ≤ w) (v : Int) :
    toPat w v % 2 ^ s = (v % (2 : Int) ^ s).toNat := by
  have hw0 : (0 : Int) < 2 ^ w := pow_pos (by norm_num) w
  have h0 : 0 ≤ v % 2 ^ w := Int.emod_nonneg v (by omega)
  have key : (v % 2 ^ w) % 2 ^ s = v % 2 ^ s := Int.emod_emod_of_dvd v (pow_dvd_pow 2 hs)
  rw [toPat, ← key]
  obtain ⟨n, hn⟩ := Int.eq_ofNat_of_zero_le h0
  rw [hn]
  have hcast : ((n : Int) % (2 : Int) ^ s) = ((n % 2 ^ s : Nat) : Int) := by
    push_cast
    rfl
  rw [hcast, Int.toNat_natCast, Int.toNat_natCast]

/-- Claim C9 (amended).  With a 64-bit backing word sequence, for every
value pattern, every value-type width `w ≤ 64` and every range width
`s ≤ w` whose mask shift stays below the promoted width — all `s < w`,
and also the full width `s = w` for value types narrower than 32 bits
(8- and 16-bit types), where integral promotion to 32-bit `int` keeps
the `(T(1) << s) - 1` shift defined — assigning through
`Bit_range::operator=` and reading back through `Bit_range::operator T`
at the same position returns `v mod 2^s` for an unsigned value type and
the sign-extended interpretation of the low `s` bits for a signed one —
including ranges that straddle a word boundary.  Only `s = w` with
`w ∈ {32, 64}` hits the undefined full-width shift; see the
counterexample. -/
theorem bit_range_assign_read_roundtrip (mem : Nat → Nat) (pos s w : Nat)
    (hw : w ≤ 64) (hsw : s ≤ w) (hs : s < w ∨ w < 32) :
    (∀ vpat : Nat,
      Bit_range_castU (Bit_range_assign mem pos s w vpat) pos s w = vpat % 2 ^ s) ∧
    (∀ v : Int,
      Bit_range_castS (Bit_range_assign mem pos s w (toPat w v)) pos s w = sext s v) := by
  have hsiw : s % intWidth w = s := Nat.mod_eq_of_lt (by rw [intWidth]; omega)
  have hmask : (2 ^ s - 1) % 2 ^ w = 2 ^ s - 1 := by
    apply Nat.mod_eq_of_lt
    have : (2 : Nat) ^ s ≤ 2 ^ w := Nat.pow_le_pow_right (by norm_num) (by omega)
    have : (0 : Nat) < 2 ^ s := pow_pos (by norm_num) s
    omega
  constructor
  · intro vpat
    rw [Bit_range_castU]
    by_cases hz : s = 0
    · subst hz
      simp [Nat.mod_one]
    · rw [if_neg hz, hsiw, hmask]
      exact bit_range_write_read_core mem pos s w hw hsw hs vpat
  · intro v
    simp only [Bit_range_castS]
    by_cases hz : s = 0
    · subst hz
      simp [sext]
    · have hs1 : 1 ≤ s := by omega
      rw [if_neg hz, hsiw, hmask]
      have hcore := bit_range_write_read_core mem pos s w hw hsw hs (toPat w v)
      set p := toPat w v % 2 ^ s with hpdef
      have hplt : p < 2 ^ s := Nat.mod_lt _ (pow_pos (by norm_num) s)
      have hsm : (s - 1) % intWidth w = s - 1 := Nat.mod_eq_of_lt (by rw [intWidth]; omega)
      have hsmw : (2 : Nat) ^ (s - 1) % 2 ^ w = 2 ^ (s - 1) :=
        Nat.mod_eq_of_lt (Nat.pow_lt_pow_right (by norm_num) (by omega))
      rw [hcore, hsm, hsmw]
      have htop := testBit_top_of_lt p s hs1 hplt
      have hptoNat : p = (v % (2 : Int) ^ s).toNat := toPat_mod w s (by omega) v
      by_cases hle : 2 ^ (s - 1) ≤ p
      · have hbit : p.testBit (s - 1) = true := by rw [htop]; simp [hle]
        have hand : p &&& 2 ^ (s - 1) = 2 ^ (s - 1) := by
          apply Nat.eq_of_testBit_eq
          intro j
          rw [Nat.testBit_land, Nat.testBit_two_pow]
          by_cases hj : s - 1 = j
          · subst hj
            simp [hbit]
          · simp [hj]
        rw [if_pos (by rw [hand]; positivity)]
        -- the OR with the complement mask has value p + (2^w - 2^s)
        set q := p ||| ((2 ^ w - 1) ^^^ (2 ^ s - 1)) with hqdef
        have hq_hi : ∀ j, s ≤ j → q.testBit j = decide (j < w) := by
          intro j hj
          rw [hqdef, Nat.testBit_lor, Nat.testBit_xor, Nat.testBit_two_pow_sub_one,
            Nat.testBit_two_pow_sub_one,
            Nat.testBit_lt_two_pow (lt_of_lt_of_le hplt (Nat.pow_le_pow_right (by norm_num) hj))]
          by_cases hjw : j < w <;> simp [hjw, (show ¬ j < s by omega)]
        have hq_lo : ∀ j, j < s → q.testBit j = p.testBit j := by
          intro j hj
          rw [hqdef, Nat.testBit_lor, Nat.testBit_xor, Nat.testBit_two_pow_sub_one,
            Nat.testBit_two_pow_sub_one]
          simp [hj, (show j < w by omega)]
        have hqmod : q % 2 ^ s = p := by
          apply Nat.eq_of_testBit_eq
          intro j
          rw [Nat.testBit_mod_two_pow]
          by_cases hj : j < s
          · simp [hj, hq_lo j hj]
          · have hpj : p.testBit j = false :=
              Nat.testBit_lt_two_pow (lt_of_lt_of_le hplt
                (Nat.pow_le_pow_right (by norm_num) (by omega)))
            simp [hj, hpj]
        have hqdiv : q / 2 ^ s = 2 ^ (w - s) - 1 := by
          rw [← Nat.shiftRight_eq_div_pow]
          apply Nat.eq_of_testBit_eq
          intro j
          rw [Nat.testBit_shiftRight, Nat.testBit_two_pow_sub_one, hq_hi (s + j) (by omega)]
          by_cases hjw : j < w - s
          · simp [hjw, (show s + j < w by omega)]
          · simp [hjw, (show ¬ s + j < w by omega)]
        have hqval : q = 2 ^ w - 2 ^ s + p := by
          have hdm := Nat.div_add_mod q (2 ^ s)
          rw [hqdiv, hqmod] at hdm
          have hpow : 2 ^ s * (2 ^ (w - s) - 1) = 2 ^ w - 2 ^ s := by
            rw [Nat.mul_sub, Nat.mul_one, ← Nat.pow_add]
            congr 2
            omega
          omega
        have hpow_le : (2 : Nat) ^ s ≤ 2 ^ w := Nat.pow_le_pow_right (by norm_num) (by omega)
        have hpow_half : (2 : Nat) ^ (s - 1) ≤ 2 ^ (w - 1) :=
          Nat.pow_le_pow_right (by norm_num) (by omega)
        have hpow_w : (2 : Nat) ^ w = 2 ^ (w - 1) + 2 ^ (w - 1) := by
          rw [← Nat.two_mul, ← Nat.pow_succ']
          congr 1
          omega
        have hpow_s : (2 : Nat) ^ s = 2 ^ (s - 1) + 2 ^ (s - 1) := by
          rw [← Nat.two_mul, ← Nat.pow_succ']
          congr 1
          omega
        have hqge : ¬ q < 2 ^ (w - 1) := by omega
        rw [toVal, if_neg hqge, sext_cases s hs1 v, if_pos (by rw [← hptoNat]; exact hle),
          ← hptoNat, hqval]
        push_cast [Nat.sub_add_cancel, hpow_le]
        omega
      · have hbit : p.testBit (s - 1) = false := by rw [htop]; simp [hle]
        have hand : p &&& 2 ^ (s - 1) = 0 := by
          apply Nat.eq_of_testBit_eq
          intro j
          rw [Nat.testBit_land, Nat.testBit_two_pow, Nat.zero_testBit]
          by_cases hj : s - 1 = j
          · subst hj
            simp [hbit]
          · simp [hj]
        rw [if_neg (by rw [hand]; simp)]
        have hphalf : p < 2 ^ (s - 1) := by omega
        have hpw : p < 2 ^ (w - 1) :=
          lt_of_lt_of_le hphalf (Nat.pow_le_pow_right (by norm_num) (by omega))
        rw [toVal, if_pos hpw, sext_cases s hs1 v, if_neg (by rw [← hptoNat]; exact hle),
          ← hptoNat]

/-- Witness for `bit_range_assign_read_roundtrip`: a concrete
word-crossing instance (bit position 60, width 33 inside 64-bit words)
for an unsigned pattern and a negative signed value, plus two full-width
instances of the narrow value types — `s = w = 16` across a word
boundary and `s = w = 8` — where the promoted mask shift is defined. -/
theorem bit_range_assign_read_roundtrip_witness :
    ((33 ≤ 64 ∧ (33 < 64 ∨ (64 : Nat) < 32)) ∧
      (16 ≤ 16 ∧ ((16 : Nat) < 16 ∨ (16 : Nat) < 32))) ∧
    Bit_range_castU (Bit_range_assign (fun _ => 0) 60 33 64 8589947210) 60 33 64
      = 8589947210 % 2 ^ 33 ∧
    Bit_range_castS (Bit_range_assign (fun _ => 0) 60 33 64 (toPat 64 (-5))) 60 33 64
      = sext 33 (-5) ∧
    Bit_range_castU (Bit_range_assign (fun _ => 0) 60 16 16 70000) 60 16 16
      = 70000 % 2 ^ 16 ∧
    Bit_range_castS (Bit_range_assign (fun _ => 0) 5 8 8 (toPat 8 (-100))) 5 8 8
      = sext 8 (-100) :=
  ⟨⟨⟨by decide, by decide⟩, ⟨by decide, by decide⟩⟩,
   (bit_range_assign_read_roundtrip (fun _ => 0) 60 33 64
     (by decide) (by decide) (by decide)).1 8589947210,
   (bit_range_assign_read_roundtrip (fun _ => 0) 60 33 64
     (by decide) (by decide) (by decide)).2 (-5),
   (bit_range_assign_read_roundtrip (fun _ => 0) 60 16 16
     (by decide) (by decide) (by decide)).1 70000,
   (bit_range_assign_read_roundtrip (fun _ => 0) 5 8 8
     (by decide) (by decide) (by decide)).2 (-100)⟩

/-! ### Supporting lemmas for the stream round trip (C6) -/

/-- Length of `dropWhile` never exceeds the input's length. -/
theorem length_dropWhile_le (p : Char → Bool) (l : List Char) :
    (l.dropWhile p).length ≤ l.length := by
  induction l with
  | nil => simp
  | cons x xs ih =>
    by_cases h : p x
    · simp only [List.dropWhile, h, List.length_cons]; omega
    · simp [List.dropWhile, h]

/-- Value of `takeWhile` over a prefix free of the stop character. -/
theorem takeWhile_ne_append (q : Char) (pre suf : List Char) (h : q ∉ pre) :
    (pre ++ q :: suf).takeWhile (fun c => c ≠ q) = pre := by
  induction pre with
  | nil => simp [List.takeWhile]
  | cons x xs ih =>
    have hx : x ≠ q := fun hh => h (hh ▸ List.mem_cons_self x xs)
    have ih' := ih (fun hm => h (List.mem_cons_of_mem _ hm))
    simp [List.takeWhile_cons, hx]
    simpa using ih'

/-- Value of `dropWhile` over a prefix free of the stop character. -/
theorem dropWhile_ne_append (q : Char) (pre suf : List Char) (h : q ∉ pre) :
    (pre ++ q :: suf).dropWhile (fun c => c ≠ q) = q :: suf := by
  induction pre with
  | nil => simp [List.dropWhile]
  | cons x xs ih =>
    have hx : x ≠ q := fun hh => h (hh ▸ List.mem_cons_self x xs)
    have ih' := ih (fun hm => h (List.mem_cons_of_mem _ hm))
    simp [List.dropWhile_cons, hx]
    simpa using ih'

/-- Behavior of `takeThrough` when the stop character first occurs right
after `pre`. -/
theorem takeThrough_append (c : Char) (pre suf : List Char) (h : c ∉ pre) :
    takeThrough c (pre ++ c :: suf) = pre ++ [c] := by
  induction pre with
  | nil => simp [takeThrough]
  | cons x xs ih =>
    have hx : x ≠ c := fun hh => h (hh ▸ List.mem_cons_self x xs)
    have ih' := ih (fun hm => h (List.mem_cons_of_mem _ hm))
    simp only [List.cons_append, takeThrough, if_neg hx, List.append_eq, ih']

/-- Behavior of `dropThrough` when the stop character first occurs right
after `pre`. -/
theorem dropThrough_append (c : Char) (pre suf : List Char) (h : c ∉ pre) :
    dropThrough c (pre ++ c :: suf) = suf := by
  induction pre with
  | nil => simp [dropThrough]
  | cons x xs ih =>
    have hx : x ≠ c := fun hh => h (hh ▸ List.mem_cons_self x xs)
    have ih' := ih (fun hm => h (List.mem_cons_of_mem _ hm))
    simp only [List.cons_append, dropThrough, if_neg hx, List.append_eq, ih']

/-- Two lists with distinct head characters are not in the prefix relation. -/
theorem not_prefix_of_head_ne {a b : Char} (l₁ l₂ : List Char) (hab : a ≠ b) :
    ¬ (a :: l₁) <+: (b :: l₂) := by
  rintro ⟨w, hw⟩
  rw [List.cons_append] at hw
  exact hab (by injection hw)

/-- A prefix of an append is a prefix of the left part or extends it. -/
theorem prefix_append_cases {l u w : List Char} (h : l <+: u ++ w) :
    l <+: u ∨ u <+: l := by
  rw [List.prefix_iff_eq_take] at h
  by_cases hl : l.length ≤ u.length
  · left
    rw [List.take_append_of_le_length hl] at h
    exact h ▸ List.take_prefix _ _
  · right
    rw [show l.length = u.length + (l.length - u.length) from by omega, List.take_append] at h
    exact h ▸ List.prefix_append _ _

/-- The attribute scan yields nothing on an empty attribute text. -/
theorem attrScanGo_nil (name : List Char) (f : Nat) : attrScanGo name f [] = [] := by
  cases f with
  | zero => rfl
  | succ f => simp [attrScanGo]

/-- The attribute scan stops when fewer than `name.length + 3` characters
remain (the loop bound of `XML_element.hpp:297`). -/
theorem attrScanGo_short (name : List Char) (f : Nat) (s : List Char)
    (h : s.length < name.length + 3) : attrScanGo name f s = [] := by
  cases f with
  | zero => rfl
  | succ f => rw [attrScanGo, if_pos h]

/-- The fuel argument of `attrScanGo` is irrelevant once it covers the
text length: the source's loop needs at most one iteration per character. -/
theorem attrScanGo_fuel (name : List Char) (f : Nat) : ∀ g s, s.length ≤ f → s.length ≤ g →
    attrScanGo name f s = attrScanGo name g s := by
  induction f with
  | zero =>
    intro g s hf _
    have hs : s = [] := List.eq_nil_of_length_eq_zero (by omega)
    subst hs
    rw [attrScanGo_nil, attrScanGo_nil]
  | succ f ih =>
    intro g s hf hg
    cases s with
    | nil => rw [attrScanGo_nil, attrScanGo_nil]
    | cons x tl =>
      obtain ⟨g', rfl⟩ : ∃ g', g = g' + 1 := ⟨g - 1, by simp at hg; omega⟩
      by_cases hshort : (x :: tl).length < name.length + 3
      · rw [attrScanGo_short _ _ _ hshort, attrScanGo_short _ _ _ hshort]
      · rw [attrScanGo, attrScanGo, if_neg hshort, if_neg hshort]
        by_cases hmatch : (x :: tl).take name.length = name ∧
            (x :: tl).getD name.length ' ' = '='
        · rw [if_pos hmatch, if_pos hmatch]
        · rw [if_neg hmatch, if_neg hmatch]
          simp only [List.length_cons] at hf hg
          by_cases heq : (x :: tl).getD 0 ' ' = '='
          · rw [if_pos heq, if_pos heq]
            apply ih
            · have h1 : ((x :: tl).drop 2).length ≤ tl.length := by
                simp [List.length_drop]
              have h2 := length_dropWhile_le
                (fun c => c ≠ (x :: tl).getD 1 ' ') ((x :: tl).drop 2)
              have h3 := List.length_drop 1
                (((x :: tl).drop 2).dropWhile fun c => c ≠ (x :: tl).getD 1 ' ')
              omega
            · have h1 : ((x :: tl).drop 2).length ≤ tl.length := by
                simp [List.length_drop]
              have h2 := length_dropWhile_le
                (fun c => c ≠ (x :: tl).getD 1 ' ') ((x :: tl).drop 2)
              have h3 := List.length_drop 1
                (((x :: tl).drop 2).dropWhile fun c => c ≠ (x :: tl).getD 1 ' ')
              omega
          · rw [if_neg heq, if_neg heq]
            apply ih <;> simp [List.length_drop] <;> omega

/-- Lookup on a too-short attribute text yields the empty string. -/
theorem attrLookup_short (s name : List Char) (h : s.length < name.length + 3) :
    attrLookup s name = [] := attrScanGo_short _ _ _ h

/-- When the requested name, `=`, and a quoted value stand at the head of
the attribute text, the lookup returns the quoted value. -/
theorem attrLookup_found (name v rest : List Char) (q : Char) (hq : q ∉ v) :
    attrLookup (name ++ '=' :: q :: (v ++ q :: rest)) name = v := by
  show attrScanGo name (name ++ '=' :: q :: (v ++ q :: rest)).length
      (name ++ '=' :: q :: (v ++ q :: rest)) = v
  have hlen : (name ++ '=' :: q :: (v ++ q :: rest)).length =
      (name.length + v.length + rest.length + 2) + 1 := by
    simp [List.length_append]
    omega
  rw [hlen, attrScanGo]
  rw [if_neg (by rw [hlen]; omega)]
  have h1 : (name ++ '=' :: q :: (v ++ q :: rest)).take name.length = name :=
    List.take_left name _
  have h2 : (name ++ '=' :: q :: (v ++ q :: rest)).getD name.length ' ' = '=' := by
    rw [List.getD_append_right _ _ _ _ le_rfl]
    simp
  rw [if_pos ⟨h1, h2⟩]
  have h3 : (name ++ '=' :: q :: (v ++ q :: rest)).getD (name.length + 1) ' ' = q := by
    rw [List.getD_append_right _ _ _ _ (by omega)]
    simp
  have h4 : (name ++ '=' :: q :: (v ++ q :: rest)).drop (name.length + 2) = v ++ q :: rest := by
    rw [show name ++ '=' :: q :: (v ++ q :: rest) = (name ++ ['=', q]) ++ (v ++ q :: rest)
      from by simp]
    rw [show name.length + 2 = (name ++ ['=', q]).length from by simp, List.drop_left]
  rw [h3, h4, takeWhile_ne_append q v rest hq]

/-- A non-matching, non-`=` character at the head of the attribute text is
stepped over. -/
theorem attrLookup_advance (name : List Char) (x : Char) (tl : List Char)
    (hm : ¬ name <+: (x :: tl)) (hx : x ≠ '=') :
    attrLookup (x :: tl) name = attrLookup tl name := by
  by_cases hshort : (x :: tl).length < name.length + 3
  · rw [attrLookup_short _ _ hshort, attrLookup_short _ _ (by simp at hshort ⊢; omega)]
  · show attrScanGo name (x :: tl).length (x :: tl) = attrScanGo name tl.length tl
    rw [show (x :: tl).length = tl.length + 1 from by simp, attrScanGo, if_neg hshort]
    rw [if_neg (fun hmatch => hm (List.prefix_iff_eq_take.mpr hmatch.1.symm))]
    rw [if_neg (by simpa using hx)]
    rw [show (x :: tl).drop 1 = tl from by simp]

/-- Standing on `=`, the scan skips the whole quoted value that follows
(`XML_element.hpp:303-304`). -/
theorem attrLookup_skipq (c : Char) (cs : List Char) (q : Char) (v rest : List Char)
    (hc : c ≠ '=') (hq : q ∉ v) :
    attrLookup ('=' :: q :: (v ++ q :: rest)) (c :: cs) = attrLookup rest (c :: cs) := by
  by_cases hshort : ('=' :: q :: (v ++ q :: rest)).length < (c :: cs).length + 3
  · rw [attrLookup_short _ _ hshort,
      attrLookup_short _ _ (by simp [List.length_append] at hshort ⊢; omega)]
  · show attrScanGo (c :: cs) ('=' :: q :: (v ++ q :: rest)).length
        ('=' :: q :: (v ++ q :: rest)) = attrLookup rest (c :: cs)
    have hlen : ('=' :: q :: (v ++ q :: rest)).length = (v.length + rest.length + 2) + 1 := by
      simp [List.length_append]
      omega
    rw [hlen] at hshort ⊢
    rw [attrScanGo, if_neg (by rw [hlen]; exact hshort)]
    rw [if_neg (fun hmatch => by
      have h1 := hmatch.1
      rw [List.length_cons, List.take_succ_cons] at h1
      exact hc (by injection h1 with h _; exact h.symm))]
    rw [if_pos (by simp)]
    have hd2 : ('=' :: q :: (v ++ q :: rest)).drop 2 = v ++ q :: rest := rfl
    have hg1 : ('=' :: q :: (v ++ q :: rest)).getD 1 ' ' = q := rfl
    rw [hd2, hg1, dropWhile_ne_append q v rest hq, show (q :: rest).drop 1 = rest from by simp]
    exact attrScanGo_fuel _ _ _ _ (by omega) le_rfl

/-- Scanning for an attribute steps over a whole non-matching
`aname="value"` pair: the requested name never matches inside `aname`
(hypothesis `hn`), and the quoted value is skipped in one stride. -/
theorem attrLookup_skip_pair (c : Char) (cs : List Char) (q : Char)
    (n v rest : List Char) (hc : c ≠ '=') (hq : q ∉ v) :
    '=' ∉ n →
    (∀ i, i < n.length →
      ¬ (c :: cs) <+: (n.drop i ++ ['=', q]) ∧ ¬ (n.drop i ++ ['=', q]) <+: (c :: cs)) →
    attrLookup (n ++ '=' :: q :: (v ++ q :: rest)) (c :: cs) = attrLookup rest (c :: cs) := by
  induction n with
  | nil =>
    intro _ _
    simpa using attrLookup_skipq c cs q v rest hc hq
  | cons x n' ih =>
    intro he hn
    have hx : x ≠ '=' := fun h => he (h ▸ List.mem_cons_self x n')
    have h0 := hn 0 (by simp)
    simp only [List.drop_zero] at h0
    have hm : ¬ (c :: cs) <+: (x :: (n' ++ '=' :: q :: (v ++ q :: rest))) := by
      intro hpre
      rw [show x :: (n' ++ '=' :: q :: (v ++ q :: rest)) =
        ((x :: n') ++ ['=', q]) ++ (v ++ q :: rest) from by simp] at hpre
      rcases prefix_append_cases hpre with h | h
      · exact h0.1 h
      · exact h0.2 h
    rw [show (x :: n') ++ '=' :: q :: (v ++ q :: rest) =
      x :: (n' ++ '=' :: q :: (v ++ q :: rest)) from by simp]
    rw [attrLookup_advance _ x _ hm hx]
    exact ih (fun h => he (List.mem_cons_of_mem _ h))
      (fun i hi => by
        have h := hn (i + 1) (by simp; omega)
        simpa using h)

/-- Decimal digit characters have code points in `[48, 57]`, and the
`stoul`-style accumulator step recovers the digit. -/
theorem digitChar_props (d : Nat) (h : d < 10) :
    48 ≤ (Nat.digitChar d).toNat ∧ (Nat.digitChar d).toNat ≤ 57 ∧
      (Nat.digitChar d).toNat - 48 = d := by
  interval_cases d <;> exact ⟨by decide, by decide, by decide⟩

/-- Every character printed for an unsigned number is a decimal digit. -/
theorem reprDigits_bounds (n : Nat) : ∀ c ∈ reprDigits n, 48 ≤ c.toNat ∧ c.toNat ≤ 57 := by
  intro c hc
  rw [reprDigits] at hc
  by_cases h : n = 0
  · rw [if_pos h] at hc
    simp at hc
    subst hc
    exact ⟨by decide, by decide⟩
  · rw [if_neg h] at hc
    obtain ⟨d, hd, rfl⟩ := List.mem_map.mp hc
    have hd10 : d < 10 := Nat.digits_lt_base (by norm_num) (List.mem_reverse.mp hd)
    exact ⟨(digitChar_props d hd10).1, (digitChar_props d hd10).2.1⟩

/-- Characters outside the digit range do not occur in a digit string. -/
theorem not_mem_of_digit_bounds {l : List Char}
    (hl : ∀ c ∈ l, 48 ≤ c.toNat ∧ c.toNat ≤ 57) (x : Char)
    (hx : x.toNat < 48 ∨ 57 < x.toNat) : x ∉ l := by
  intro hm
  have := hl x hm
  omega

/-- The `stoul` fold over a most-significant-first digit rendering computes
the base-10 value of the digit list. -/
theorem parseNat_digits (ds : List Nat) (h : ∀ d ∈ ds, d < 10) :
    parseNat (ds.reverse.map Nat.digitChar) = Nat.ofDigits 10 ds := by
  induction ds with
  | nil => rfl
  | cons d ds ih =>
    rw [List.reverse_cons, List.map_append, parseNat, List.foldl_append]
    simp only [List.map_cons, List.map_nil, List.foldl_cons, List.foldl_nil]
    rw [show List.foldl (fun a c => 10 * a + (c.toNat - 48)) 0
        (List.map Nat.digitChar ds.reverse) = parseNat (ds.reverse.map Nat.digitChar) from rfl]
    rw [ih (fun d hd => h d (List.mem_cons_of_mem _ hd)), Nat.ofDigits_cons]
    have := (digitChar_props d (h d (List.mem_cons_self d ds))).2.2
    omega

/-- Printing an unsigned value and re-parsing it with `stoul` is lossless. -/
theorem parseNat_reprDigits (n : Nat) : parseNat (reprDigits n) = n := by
  by_cases h : n = 0
  · subst h
    rfl
  · rw [reprDigits, if_neg h,
      parseNat_digits _ (fun d hd => Nat.digits_lt_base (by norm_num) hd),
      Nat.ofDigits_digits]

/-- Reading back a character that stored a byte value recovers the byte. -/
theorem char_toNat_ofNat (b : Nat) (hb : b < 256) : (Char.ofNat b).toNat = b := by
  unfold Char.ofNat
  have hv : b.isValidChar := Or.inl (by omega)
  rw [dif_pos hv]
  unfold Char.ofNatAux Char.toNat
  simp [UInt32.toNat, UInt32.ofNat', BitVec.toNat_ofNat]

/-- Every payload byte written by `operator<<` is below 256. -/
theorem payloadBytes_lt (t : TerseData) : ∀ b ∈ payloadBytes t, b < 256 := by
  intro b hb
  rw [payloadBytes] at hb
  simp only [List.mem_flatMap, List.mem_map, List.mem_range] at hb
  obtain ⟨w, _, i, _, rfl⟩ := hb
  exact Nat.mod_lt _ (by norm_num)

/-- Serialising bytes as characters and reading their code points back is
the identity on byte lists. -/
theorem map_toNat_ofNat (bs : List Nat) (h : ∀ b ∈ bs, b < 256) :
    (bs.map Char.ofNat).map Char.toNat = bs := by
  induction bs with
  | nil => rfl
  | cons b bs ih =>
    simp only [List.map_cons]
    rw [char_toNat_ofNat b (h b (List.mem_cons_self b bs)),
      ih (fun b hb => h b (List.mem_cons_of_mem _ hb))]

/-- Extracting the `j`-th 8-byte chunk of the serialised payload yields the
byte rendering of the `j`-th backing word. -/
theorem payload_chunk (ws : List Nat) (j : Nat) (hj : j < ws.length) :
    ((ws.flatMap fun w => (List.range 8).map fun i => (w >>> (8 * i)) % 256).drop (8 * j)).take 8
      = (List.range 8).map fun i => (ws.get ⟨j, hj⟩ >>> (8 * i)) % 256 := by
  induction ws generalizing j with
  | nil => simp at hj
  | cons w ws ih =>
    rw [List.flatMap_cons]
    cases j with
    | zero =>
      rw [Nat.mul_zero, List.drop_zero,
        List.take_append_of_le_length (by simp), List.take_of_length_le (by simp)]
      rfl
    | succ j =>
      have hstep : 8 * (j + 1) =
          ((List.range 8).map fun i => (w >>> (8 * i)) % 256).length + 8 * j := by
        simp
        omega
      rw [hstep, List.drop_append]
      exact ih j (by simpa using hj)

/-- Eight little-endian bytes recompose the word they were cut from. -/
theorem ofBytesLE_bytes (w : Nat) (hw : w < 2 ^ 64) :
    ofBytesLE ((List.range 8).map fun i => (w >>> (8 * i)) % 256) = w := by
  rw [show List.range 8 = [0, 1, 2, 3, 4, 5, 6, 7] from rfl]
  simp only [List.map_cons, List.map_nil]
  simp only [ofBytesLE, Nat.shiftRight_eq_div_pow]
  norm_num
  have e1 : w / 256 / 256 = w / 65536 := by rw [Nat.div_div_eq_div_mul]
  have e2 : w / 65536 / 256 = w / 16777216 := by rw [Nat.div_div_eq_div_mul]
  have e3 : w / 16777216 / 256 = w / 4294967296 := by rw [Nat.div_div_eq_div_mul]
  have e4 : w / 4294967296 / 256 = w / 1099511627776 := by rw [Nat.div_div_eq_div_mul]
  have e5 : w / 1099511627776 / 256 = w / 281474976710656 := by rw [Nat.div_div_eq_div_mul]
  have e6 : w / 281474976710656 / 256 = w / 72057594037927936 := by rw [Nat.div_div_eq_div_mul]
  have e7 : w / 72057594037927936 / 256 = w / 18446744073709551616 := by
    rw [Nat.div_div_eq_div_mul]
  have h0 := Nat.div_add_mod w 256
  have h1 := Nat.div_add_mod (w / 256) 256
  have h2 := Nat.div_add_mod (w / 65536) 256
  have h3 := Nat.div_add_mod (w / 16777216) 256
  have h4 := Nat.div_add_mod (w / 4294967296) 256
  have h5 := Nat.div_add_mod (w / 1099511627776) 256
  have h6 := Nat.div_add_mod (w / 281474976710656) 256
  have h7 := Nat.div_add_mod (w / 72057594037927936) 256
  have hz : w / 18446744073709551616 = 0 := Nat.div_eq_of_lt (by
    have : (2 : Nat) ^ 64 = 18446744073709551616 := by norm_num
    omega)
  omega

/-- Re-cutting the serialised payload into words restores the backing
store. -/
theorem words_reconstruct (ws : List Nat) (hw : ∀ x ∈ ws, x < 2 ^ 64) :
    (List.range ws.length).map (fun j =>
      ofBytesLE (((ws.flatMap fun w => (List.range 8).map fun i => (w >>> (8 * i)) % 256).drop
        (8 * j)).take 8)) = ws := by
  apply List.ext_getElem (by simp)
  intro i h1 h2
  rw [List.getElem_map, List.getElem_range]
  rw [payload_chunk ws i h2, ofBytesLE_bytes _ (hw _ (List.get_mem ws i h2))]
  rfl

/-- Lookup of `prolix_bits` on the writer's attribute text. -/
theorem attrsText_prolix (P S K M N : List Char) (hP : '"' ∉ P) :
    attrLookup (attrsText P S K M N) "prolix_bits".data = P := by
  rw [attrsText]
  exact attrLookup_found _ P _ '"' hP

/-- Lookup of `signed` on the writer's attribute text. -/
theorem attrsText_signed (P S K M N : List Char) (hP : '"' ∉ P) (hS : '"' ∉ S) :
    attrLookup (attrsText P S K M N) "signed".data = S := by
  rw [attrsText, show ("signed".data : List Char) = 's' :: "igned".data from rfl]
  rw [attrLookup_skip_pair 's' "igned".data '"' "prolix_bits".data P _
    (by decide) hP (by decide) (by decide)]
  rw [attrLookup_advance _ ' ' _ (not_prefix_of_head_ne _ _ (by decide)) (by decide)]
  exact attrLookup_found _ S _ '"' hS

/-- Lookup of `block` on the writer's attribute text. -/
theorem attrsText_block (P S K M N : List Char) (hP : '"' ∉ P) (hS : '"' ∉ S)
    (hK : '"' ∉ K) :
    attrLookup (attrsText P S K M N) "block".data = K := by
  rw [attrsText, show ("block".data : List Char) = 'b' :: "lock".data from rfl]
  rw [attrLookup_skip_pair 'b' "lock".data '"' "prolix_bits".data P _
    (by decide) hP (by decide) (by decide)]
  rw [attrLookup_advance _ ' ' _ (not_prefix_of_head_ne _ _ (by decide)) (by decide)]
  rw [attrLookup_skip_pair 'b' "lock".data '"' "signed".data S _
    (by decide) hS (by decide) (by decide)]
  rw [attrLookup_advance _ ' ' _ (not_prefix_of_head_ne _ _ (by decide)) (by decide)]
  exact attrLookup_found _ K _ '"' hK

/-- Lookup of `memory_size` on the writer's attribute text. -/
theorem attrsText_memory (P S K M N : List Char) (hP : '"' ∉ P) (hS : '"' ∉ S)
    (hK : '"' ∉ K) (hM : '"' ∉ M) :
    attrLookup (attrsText P S K M N) "memory_size".data = M := by
  rw [attrsText, show ("memory_size".data : List Char) = 'm' :: "emory_size".data from rfl]
  rw [attrLookup_skip_pair 'm' "emory_size".data '"' "prolix_bits".data P _
    (by decide) hP (by decide) (by decide)]
  rw [attrLookup_advance _ ' ' _ (not_prefix_of_head_ne _ _ (by decide)) (by decide)]
  rw [attrLookup_skip_pair 'm' "emory_size".data '"' "signed".data S _
    (by decide) hS (by decide) (by decide)]
  rw [attrLookup_advance _ ' ' _ (not_prefix_of_head_ne _ _ (by decide)) (by decide)]
  rw [attrLookup_skip_pair 'm' "emory_size".data '"' "block".data K _
    (by decide) hK (by decide) (by decide)]
  rw [attrLookup_advance _ ' ' _ (not_prefix_of_head_ne _ _ (by decide)) (by decide)]
  exact attrLookup_found _ M _ '"' hM

/-- Lookup of `number_of_values` on the writer's attribute text. -/
theorem attrsText_number (P S K M N : List Char) (hP : '"' ∉ P) (hS : '"' ∉ S)
    (hK : '"' ∉ K) (hM : '"' ∉ M) (hN : '"' ∉ N) :
    attrLookup (attrsText P S K M N) "number_of_values".data = N := by
  rw [attrsText,
    show ("number_of_values".data : List Char) = 'n' :: "umber_of_values".data from rfl]
  rw [attrLookup_skip_pair 'n' "umber_of_values".data '"' "prolix_bits".data P _
    (by decide) hP (by decide) (by decide)]
  rw [attrLookup_advance _ ' ' _ (not_prefix_of_head_ne _ _ (by decide)) (by decide)]
  rw [attrLookup_skip_pair 'n' "umber_of_values".data '"' "signed".data S _
    (by decide) hS (by decide) (by decide)]
  rw [attrLookup_advance _ ' ' _ (not_prefix_of_head_ne _ _ (by decide)) (by decide)]
  rw [attrLookup_skip_pair 'n' "umber_of_values".data '"' "block".data K _
    (by decide) hK (by decide) (by decide)]
  rw [attrLookup_advance _ ' ' _ (not_prefix_of_head_ne _ _ (by decide)) (by decide)]
  rw [attrLookup_skip_pair 'n' "umber_of_values".data '"' "memory_size".data M _
    (by decide) hM (by decide) (by decide)]
  rw [attrLookup_advance _ ' ' _ (not_prefix_of_head_ne _ _ (by decide)) (by decide)]
  exact attrLookup_found _ N _ '"' hN

/-- The character stream written by `operator<<`, reshaped to expose the
tag head, the attribute text and the payload. -/
theorem serializeTerse_shape (t : TerseData) :
    serializeTerse t = '<' :: ("Terse".data ++ (' ' ::
      (attrsText (reprDigits t.d_prolix_bits) (if t.d_signed then ['1'] else ['0'])
          (reprDigits t.d_block) (reprDigits (memorySize t)) (reprDigits t.d_size) ++
        ('/' :: ('>' :: (payloadBytes t).map Char.ofNat))))) := by
  rw [serializeTerse, attrsText]
  rw [show ("<Terse prolix_bits=\"" : String).data =
    '<' :: ("Terse".data ++ (' ' :: ("prolix_bits".data ++ ['=', '"']))) from rfl]
  rw [show ("\" signed=\"" : String).data = '"' :: (' ' :: ("signed".data ++ ['=', '"']))
    from rfl]
  rw [show ("\" block=\"" : String).data = '"' :: (' ' :: ("block".data ++ ['=', '"']))
    from rfl]
  rw [show ("\" memory_size=\"" : String).data =
    '"' :: (' ' :: ("memory_size".data ++ ['=', '"'])) from rfl]
  rw [show ("\" number_of_values=\"" : String).data =
    '"' :: (' ' :: ("number_of_values".data ++ ['=', '"'])) from rfl]
  rw [show ("\"/>" : String).data = ['"', '/', '>'] from rfl]
  simp [List.append_assoc]

/-- The tag search succeeds immediately on a stream that starts with
`<Terse`. -/
theorem findTagGo_terse (s1 : List Char) (h5 : s1.take 5 = "Terse".data) (f : Nat) :
    findTagGo (f + 1) ('<' :: s1) = some s1 := by
  rw [findTagGo]
  rw [if_pos (List.mem_cons_self '<' s1)]
  rw [show dropThrough '<' ('<' :: s1) = s1 from by simp [dropThrough]]
  rw [if_pos h5]

/-- Claim C6.  Writing a Terse object to a stream with `operator<<`
(`Terse.hpp:189-207`) and constructing a new object from that stream
(`Terse.hpp:216-234`) reproduces the metadata (`prolix_bits`, `signed`,
`block`, `number_of_values`) and the compressed payload exactly, so the
reconstructed object decodes to the same value sequence.  Both the writer
(byte-arithmetic `val >>= 8` loop) and the reader (byte-shift repacking)
are endianness-independent, so the statement needs no host-order
parameter.  The hypothesis holds for every object built by the
constructor, whose backing words are 64-bit. -/
theorem terse_stream_roundtrip (t : TerseData)
    (hw : ∀ x ∈ t.d_terse_data, x < 2 ^ 64) :
    parseTerse (serializeTerse t) = some t := by
  have hPb := reprDigits_bounds t.d_prolix_bits
  have hKb := reprDigits_bounds t.d_block
  have hMb := reprDigits_bounds (memorySize t)
  have hNb := reprDigits_bounds t.d_size
  have hSb : ∀ c ∈ (if t.d_signed then ['1'] else ['0']), 48 ≤ c.toNat ∧ c.toNat ≤ 57 := by
    cases t.d_signed <;> simp
  rw [serializeTerse_shape]
  set P := reprDigits t.d_prolix_bits with hP
  set S := (if t.d_signed then ['1'] else ['0']) with hS
  set K := reprDigits t.d_block with hK
  set M := reprDigits (memorySize t) with hM
  set N := reprDigits t.d_size with hN
  set PAY := (payloadBytes t).map Char.ofNat with hPAY
  set ATTRS := attrsText P S K M N with hATTRS
  set s1 := "Terse".data ++ (' ' :: (ATTRS ++ ('/' :: ('>' :: PAY)))) with hs1
  have hfind : findTagGo ('<' :: s1).length ('<' :: s1) = some s1 := by
    rw [show ('<' :: s1).length = s1.length + 1 from rfl]
    apply findTagGo_terse
    rw [hs1, show (5 : Nat) = ("Terse".data : List Char).length from rfl, List.take_left]
  rw [parseTerse, hfind]
  have hgtP : '>' ∉ P := not_mem_of_digit_bounds hPb '>' (by decide)
  have hgtS : '>' ∉ S := not_mem_of_digit_bounds hSb '>' (by decide)
  have hgtK : '>' ∉ K := not_mem_of_digit_bounds hKb '>' (by decide)
  have hgtM : '>' ∉ M := not_mem_of_digit_bounds hMb '>' (by decide)
  have hgtN : '>' ∉ N := not_mem_of_digit_bounds hNb '>' (by decide)
  have hgtA : '>' ∉ ATTRS := by
    rw [hATTRS, attrsText]
    simp only [List.mem_append, List.mem_cons, not_or]
    simp [hgtP, hgtS, hgtK, hgtM, hgtN]
  have hsplit : s1 = ("Terse ".data ++ (ATTRS ++ ['/'])) ++ '>' :: PAY := by
    rw [hs1]
    simp
  have hpre : '>' ∉ "Terse ".data ++ (ATTRS ++ ['/']) := by
    simp only [List.mem_append, List.mem_cons, not_or]
    simp [hgtA]
  have hd : takeThrough '>' s1 = ("Terse ".data ++ (ATTRS ++ ['/'])) ++ ['>'] := by
    rw [hsplit, takeThrough_append '>' _ _ hpre]
  have hrest : dropThrough '>' s1 = PAY := by
    rw [hsplit, dropThrough_append '>' _ _ hpre]
  simp only [hd, hrest]
  have h6 : List.drop 6 (['T', 'e', 'r', 's', 'e', ' '] ++ (ATTRS ++ ['/']) ++ ['>']) =
      (ATTRS ++ ['/']) ++ ['>'] := by
    rw [show (['T', 'e', 'r', 's', 'e', ' '] : List Char) ++ (ATTRS ++ ['/']) ++ ['>'] =
      ['T', 'e', 'r', 's', 'e', ' '] ++ ((ATTRS ++ ['/']) ++ ['>']) from by simp]
    rw [show (6 : Nat) = (['T', 'e', 'r', 's', 'e', ' '] : List Char).length from rfl,
      List.drop_left]
  have H1 : (List.drop 6 (['T', 'e', 'r', 's', 'e', ' '] ++ (ATTRS ++ ['/']) ++ ['>'])).dropLast
      = ATTRS ++ ['/'] := by
    rw [h6, List.dropLast_concat]
  simp only [H1]
  have hc1 : ((['T', 'e', 'r', 's', 'e', ' '] ++ (ATTRS ++ ['/'])) ++ ['>']).getLast?
      = some '>' := List.getLast?_concat _
  rw [if_pos hc1]
  have hD : (['T', 'e', 'r', 's', 'e', ' '] : List Char) ++ (ATTRS ++ ['/']) ++ ['>'] =
      (['T', 'e', 'r', 's', 'e', ' '] ++ ATTRS) ++ ['/', '>'] := by simp
  have hc2a : (['T', 'e', 'r', 's', 'e', ' '] ++ (ATTRS ++ ['/']) ++ ['>']).length ≥ 2 := by
    rw [hD]
    simp [List.length_append]
  have hc2b : List.drop ((['T', 'e', 'r', 's', 'e', ' '] ++ (ATTRS ++ ['/']) ++ ['>']).length - 2)
      (['T', 'e', 'r', 's', 'e', ' '] ++ (ATTRS ++ ['/']) ++ ['>']) = ['/', '>'] := by
    rw [hD]
    rw [show ((['T', 'e', 'r', 's', 'e', ' '] ++ ATTRS) ++ ['/', '>']).length - 2 =
      (['T', 'e', 'r', 's', 'e', ' '] ++ ATTRS).length from by simp [List.length_append]]
    exact List.drop_left _ _
  rw [if_pos ⟨hc2a, hc2b⟩]
  have hattrs : (if (ATTRS ++ ['/']).length > 1 ∧ (ATTRS ++ ['/']).getLast? = some '/' then
      (ATTRS ++ ['/']).dropLast else ATTRS ++ ['/']) = ATTRS := by
    rw [if_pos ⟨by rw [hATTRS, attrsText]; simp [List.length_append], List.getLast?_concat _⟩,
      List.dropLast_concat]
  simp only [hattrs]
  have hqP : '"' ∉ P := not_mem_of_digit_bounds hPb '"' (by decide)
  have hqS : '"' ∉ S := not_mem_of_digit_bounds hSb '"' (by decide)
  have hqK : '"' ∉ K := not_mem_of_digit_bounds hKb '"' (by decide)
  have hqM : '"' ∉ M := not_mem_of_digit_bounds hMb '"' (by decide)
  have hqN : '"' ∉ N := not_mem_of_digit_bounds hNb '"' (by decide)
  have hlook1 : attrLookup ATTRS ['p', 'r', 'o', 'l', 'i', 'x', '_', 'b', 'i', 't', 's'] = P := by
    rw [hATTRS]
    exact attrsText_prolix P S K M N hqP
  have hlook2 : attrLookup ATTRS ['s', 'i', 'g', 'n', 'e', 'd'] = S := by
    rw [hATTRS]
    exact attrsText_signed P S K M N hqP hqS
  have hlook3 : attrLookup ATTRS ['b', 'l', 'o', 'c', 'k'] = K := by
    rw [hATTRS]
    exact attrsText_block P S K M N hqP hqS hqK
  have hlook4 : attrLookup ATTRS ['m', 'e', 'm', 'o', 'r', 'y', '_', 's', 'i', 'z', 'e'] = M := by
    rw [hATTRS]
    exact attrsText_memory P S K M N hqP hqS hqK hqM
  have hlook5 : attrLookup ATTRS
      ['n', 'u', 'm', 'b', 'e', 'r', '_', 'o', 'f', '_', 'v', 'a', 'l', 'u', 'e', 's'] = N := by
    rw [hATTRS]
    exact attrsText_number P S K M N hqP hqS hqK hqM hqN
  simp only [hlook1, hlook2, hlook3, hlook4, hlook5]
  have hMv : parseNat M = t.d_terse_data.length * 8 := by
    rw [hM, parseNat_reprDigits, memorySize]
  have hmap : List.map Char.toNat PAY = payloadBytes t := by
    rw [hPAY]
    exact map_toNat_ofNat _ (payloadBytes_lt t)
  simp only [hMv, hmap]
  have htake : List.take (t.d_terse_data.length * 8)
      (payloadBytes t ++ List.replicate (t.d_terse_data.length * 8) 0) = payloadBytes t := by
    rw [show t.d_terse_data.length * 8 = (payloadBytes t).length from by
      rw [payloadBytes_length t]; omega]
    exact List.take_left _ _
  have hcnt : (t.d_terse_data.length * 8 + 7) / 8 = t.d_terse_data.length := by omega
  simp only [htake, hcnt, Nat.sub_self, List.replicate_zero, List.append_nil]
  have hsig : (parseNat S != 0) = t.d_signed := by
    rw [hS]
    cases t.d_signed <;> simp <;> decide
  simp only [payloadBytes]
  rw [words_reconstruct t.d_terse_data hw]
  simp only [hsig, hP, hK, hN, parseNat_reprDigits]

/-- Witness for `terse_stream_roundtrip`: a concrete two-word object,
with a payload byte above 127 and a word with the top bit set, survives
the write/read cycle. -/
theorem terse_stream_roundtrip_witness :
    (∀ x ∈ [(123456789 : Nat), 2 ^ 63 + 17], x < 2 ^ 64) ∧
    parseTerse (serializeTerse
      { d_prolix_bits := 12, d_signed := true, d_block := 12, d_size := 3,
        d_terse_data := [123456789, 2 ^ 63 + 17] }) = some
      { d_prolix_bits := 12, d_signed := true, d_block := 12, d_size := 3,
        d_terse_data := [123456789, 2 ^ 63 + 17] } :=
  ⟨by decide, terse_stream_roundtrip _ (by decide)⟩

end Trpx
